import Mathlib

/-!
# Verification of `fetch_data.py` (rize_fetcher)

Shallow embedding of the core logic of `src/fetch_data.py`:

* `format_time` (lines 128-132): seconds to `"{h}h {m}m"` via `divmod`.
* the project/category aggregation folds (`fetch_project_data` lines 114-126,
  weekly aggregation lines 415-427),
* the weekly Monday-to-Sunday fetch window with its `if d > today: continue`
  guard (lines 405-411),
* the vault-path resolution and the per-date daily loop (lines 144-151 and
  452-459),
* the metadata update (lines 183-188),
* the report rendering (lines 190-223), and
* the "smart update" merge of the rendered report into the document body
  (lines 225-237), i.e. the effect of
  `re.sub(r"(\n## 📊 Rize Metrics.*?)(\n## |\Z)", new_report + r"\2", content,
  DOTALL, count=1)` when the pattern matches, and the plain append otherwise.

Strings are modelled as `List Char`.  Documents are modelled as a metadata
map (`String`-keyed, as the `frontmatter` library exposes `post.metadata`)
together with a body (`post.content`); file I/O, YAML serialisation and the
network layer are external collaborators and are abstracted away.  Numeric
durations are modelled as `Nat` (the API reports whole seconds); the
`round(x, 2)` of Python floats inside `to_hours` is modelled with exact
rationals and round-half-to-even, which only matters for the *values* of
metadata fields, about which no claim speaks.
-/

abbrev Str := List Char

/-! ## `format_time` (fetch_data.py lines 128-132)

```python
def format_time(seconds):
    m, s = divmod(seconds, 60)
    h, m = divmod(m, 60)
    return f"{h}h {m}m"
```

Python renders a non-negative int as its decimal digit string; we embed that
rendering explicitly (`natRepr`). -/

/-- Decimal digit character for `d % 10`. -/
def digitChar (d : Nat) : Char := Char.ofNat (48 + d % 10)

/-- Decimal digits of `n` (most significant first); `fuel ≥ n` suffices. -/
def natDigitsAux : Nat → Nat → Str
  | 0, _ => []
  | fuel + 1, n => if n = 0 then [] else natDigitsAux fuel (n / 10) ++ [digitChar n]

/-- Decimal rendering of a natural number, as Python's `f"{n}"` produces. -/
def natRepr (n : Nat) : Str := if n = 0 then ['0'] else natDigitsAux n n

/-- Embedding of format_time of fetch_data.py: `divmod(seconds, 60)` twice, seconds
discarded, rendered as `f"{h}h {m}m"`. -/
def format_time (seconds : Nat) : Str :=
  let m := seconds / 60
  let h := m / 60
  let m2 := m % 60
  natRepr h ++ "h ".toList ++ natRepr m2 ++ "m".toList

/-! ## Aggregation folds

`fetch_project_data` (lines 114-126):

```python
project_map = {}
for entry in entries:
    p = entry.get("project")
    if not p:
        continue
    name = p.get("name", "Unknown")
    duration = entry.get("duration", 0)
    project_map[name] = project_map.get(name, 0) + duration
```

and the weekly category aggregation (lines 419-421):

```python
for c in metrics.get("categories", []):
    name = c.get('type', {}).get('name', 'Unknown')
    agg_metrics["categories"][name] = agg_metrics["categories"].get(name, 0) + c.get("trackedTime", 0)
```

A Python dict keyed by strings is modelled as a total function
`Str → Nat` that is zero outside the written keys (`.get(name, 0)`). -/

/-- A projectTimeEntries record: `project` may be null/absent (the code
skips such entries via `if not p: continue`), and the project's `name` field
may be absent (defaulted to `"Unknown"`). -/
structure ProjRef where
  name : Option Str
  deriving DecidableEq

structure TimeEntry where
  project : Option ProjRef
  duration : Nat
  deriving DecidableEq

def unknownName : Str := "Unknown".toList

/-- Python `p.get("name", "Unknown")`. -/
def ProjRef.effName (p : ProjRef) : Str := p.name.getD unknownName

/-- One step of the `project_map` fold. -/
def entryStep (m : Str → Nat) (e : TimeEntry) : Str → Nat :=
  match e.project with
  | none => m
  | some p => fun n => if n = p.effName then m n + e.duration else m n

/-- The `project_map` dict after folding all entries (initially empty). -/
def project_map (entries : List TimeEntry) : Str → Nat :=
  entries.foldl entryStep (fun _ => 0)

/-- A category record of the daily `summaries` response:
`{"type": {"name": ...}, "trackedTime": ...}`; `c.get('type', {})` defaults
to an absent object and `.get('name', 'Unknown')` to `"Unknown"`. -/
structure CatType where
  name : Option Str
  deriving DecidableEq

structure Category where
  type : Option CatType
  trackedTime : Nat
  deriving DecidableEq

/-- Python `c.get('type', \x7b\x7d).get('name', 'Unknown')`. -/
def Category.effName (c : Category) : Str :=
  match c.type with
  | none => unknownName
  | some t => t.name.getD unknownName

/-- One step of the weekly category aggregation fold (lines 419-421). -/
def catStep (m : Str → Nat) (c : Category) : Str → Nat :=
  fun n => if n = c.effName then m n + c.trackedTime else m n

/-- The weekly category tally over the concatenation of all fetched days'
category lists (the code folds each day's list in fetch order). -/
def catTally (cs : List Category) : Str → Nat :=
  cs.foldl catStep (fun _ => 0)

/-! ## The weekly fetch window (fetch_data.py lines 394-411)

```python
today = datetime.date.today()
start_of_week = today - datetime.timedelta(days=today.weekday())
for i in range(7):
    d = start_of_week + datetime.timedelta(days=i)
    if d > today:
        continue
    ...fetch_daily_data(d)... fetch_project_data(d)...
```

Dates are modelled as integers (days); `wd` is `today.weekday()`
(0 = Monday, ..., 6 = Sunday). Both fetches for a day happen only after the
guard, so the list of dates for which any fetch request is issued is: -/

def weeklyFetchedDates (today : Int) (wd : Nat) : List Int :=
  (List.range 7).filterMap fun (i : Nat) =>
    let d := today - wd + (i : Int)
    if d > today then none else some d

/-! ## Vault-path resolution and the daily batch loop

`update_daily_note`, lines 144-151:

```python
vault_path = config.get("vault_path")
if not vault_path:
    vault_path = os.getenv("OBSIDIAN_VAULT_PATH")
if not vault_path:
    print("Error: Vault path not set in config.yaml or OBSIDIAN_VAULT_PATH env var.")
    return
```

and the `__main__` daily loop, lines 452-459:

```python
for d in dates_to_fetch:
    print(f"Fetching Rize data for {d.isoformat()}...")
    metrics = fetch_daily_data(d)
    projects = fetch_project_data(d)
    if metrics:
        update_daily_note(d, metrics, projects, config)
    else:
        print(f"No metrics found for {d.isoformat()}")
```

`update_daily_note` merely `return`s on a missing vault path; the loop is a
plain `for` over all target dates with no `break`/`exit`, so every date is
still processed.  Python falsiness of `config.get("vault_path")` covers both
an absent key and an empty string. -/

structure Config where
  vault_path : Option Str
  deriving DecidableEq

structure EnvVars where
  obsidian_vault_path : Option Str
  deriving DecidableEq

/-- Python truthiness of an optional string: `None` and `""` are falsy. -/
def truthyStr : Option Str → Option Str
  | none => none
  | some v => if v = [] then none else some v

/-- The resolved vault path: config value if truthy, else the environment
variable if truthy, else unresolved. -/
def resolveVaultPath (c : Config) (e : EnvVars) : Option Str :=
  match truthyStr c.vault_path with
  | some v => some v
  | none => truthyStr e.obsidian_vault_path

/-- Per-date outcome of the daily loop body, as observable from the logs. -/
inductive DailyOutcome where
  | noMetrics   -- fetch_daily_data returned nothing; note not updated
  | noVault     -- vault path unresolvable; update_daily_note returned early
  | updated     -- update_daily_note proceeded to update the note
  deriving DecidableEq

/-- Numeric summary fields of one day's metrics; each may be absent
(`metrics.get(...)` returns `None`).  `categories` defaults to `[]`
(`metrics.get("categories", [])`). -/
structure Metrics where
  workHours : Option Nat
  focusTime : Option Nat
  meetingTime : Option Nat
  breakTime : Option Nat
  trackedTime : Option Nat
  categories : List Category
  deriving DecidableEq

/-- The daily loop body for one date: fetch, then update (which first
resolves the vault path and returns early when it cannot). -/
def processDate (fetchM : Int → Option Metrics) (c : Config) (e : EnvVars)
    (d : Int) : DailyOutcome :=
  match fetchM d with
  | none => .noMetrics
  | some _ =>
    match resolveVaultPath c e with
    | none => .noVault
    | some _ => .updated

/-- The whole daily batch: the `for` loop visits every target date in order,
recording each date's outcome; nothing terminates it early. -/
def runDaily (fetchM : Int → Option Metrics) (c : Config) (e : EnvVars)
    (dates : List Int) : List (Int × DailyOutcome) :=
  dates.map fun d => (d, processDate fetchM c e d)

/-! ## Metadata update (fetch_data.py lines 173-188)

```python
def to_hours(seconds):
     if not seconds:
         return 0.0
     return round(seconds / 3600, 2)

post.metadata["rize_work_hours"] = to_hours(metrics.get("workHours"))
post.metadata["rize_focus_time"] = to_hours(metrics.get("focusTime"))
post.metadata["rize_meeting_time"] = to_hours(metrics.get("meetingTime"))
post.metadata["rize_break_time"] = to_hours(metrics.get("breakTime"))
post.metadata["rize_tracked_time"] = to_hours(metrics.get("trackedTime"))
post.metadata["rize_last_sync"] = datetime.datetime.now().isoformat()
```

The metadata dict is modelled as a partial map `Str → Option MetaVal`;
`round(x, 2)` (round half to even, as Python) with exact rationals. -/

inductive MetaVal where
  | num (q : ℚ)
  | str (s : Str)
  deriving DecidableEq

abbrev MetaMap := Str → Option MetaVal

/-- Dict assignment `m[k] = v`. -/
def setKey (m : MetaMap) (k : Str) (v : MetaVal) : MetaMap :=
  fun k' => if k' = k then some v else m k'

/-- Round to the nearest integer, ties to even (Python's `round`). -/
def roundHalfEven (q : ℚ) : ℤ :=
  let f := ⌊q⌋
  let r := q - f
  if r < 1/2 then f
  else if r > 1/2 then f + 1
  else if f % 2 = 0 then f else f + 1

/-- Function to_hours: falsy (`None` or `0`) gives `0.0`, else seconds/3600 rounded
to two decimal places. -/
def to_hours (seconds : Option Nat) : ℚ :=
  match seconds with
  | none => 0
  | some s => if s = 0 then 0 else (roundHalfEven ((s : ℚ) / 3600 * 100) : ℚ) / 100

def workHoursKey : Str := "rize_work_hours".toList
def focusTimeKey : Str := "rize_focus_time".toList
def meetingTimeKey : Str := "rize_meeting_time".toList
def breakTimeKey : Str := "rize_break_time".toList
def trackedTimeKey : Str := "rize_tracked_time".toList
def lastSyncKey : Str := "rize_last_sync".toList

/-- The six metadata keys written by `update_daily_note`. -/
def dailyMetaKeys : List Str :=
  [workHoursKey, focusTimeKey, meetingTimeKey, breakTimeKey, trackedTimeKey, lastSyncKey]

/-- The metadata assignments of `update_daily_note`, in source order;
`nowSync` is `datetime.datetime.now().isoformat()`. -/
def update_daily_note_metadata (m : MetaMap) (metrics : Metrics) (nowSync : Str) : MetaMap :=
  setKey (setKey (setKey (setKey (setKey (setKey m
    workHoursKey (.num (to_hours metrics.workHours)))
    focusTimeKey (.num (to_hours metrics.focusTime)))
    meetingTimeKey (.num (to_hours metrics.meetingTime)))
    breakTimeKey (.num (to_hours metrics.breakTime)))
    trackedTimeKey (.num (to_hours metrics.trackedTime)))
    lastSyncKey (.str nowSync)

/-! ## Report rendering (fetch_data.py lines 190-223)

```python
categories = metrics.get("categories", [])
categories.sort(key=lambda x: x['trackedTime'], reverse=True)
projects.sort(key=lambda x: x['trackedTime'], reverse=True)

report_lines = []
report_lines.append(f"\n## 📊 Rize Metrics ({datetime.datetime.now().strftime('%H:%M')})\n")
if categories:
    report_lines.append("### Top Categories")
    report_lines.append("| Category | Time |")
    report_lines.append("| :--- | :--- |")
    for c in categories[:10]:
        name = c.get('type', {}).get('name', 'Unknown')
        time_str = format_time(c['trackedTime'])
        report_lines.append(f"| {name} | {time_str} |")
    report_lines.append("\n")
if projects:
    ... same with "### Top Projects" / p.get('name', 'Unknown') ...
new_report = "\n".join(report_lines)
```

Python's `list.sort(key=..., reverse=True)` is a *stable descending* sort:
entries are ordered by descending key, and entries with equal keys keep
their original relative order.  It is embedded as `List.insertionSort`
with the relation `fun a b => key b ≤ key a`, which has exactly that
stable-descending semantics (`a` is placed before `b` iff
`key b ≤ key a`, so an earlier element stays before a later one of equal
key). -/

/-- A projects record produced by `fetch_project_data`
(`{"name": ..., "trackedTime": ...}`); `update_daily_note` reads the name
with `p.get('name', 'Unknown')`. -/
structure Project where
  name : Option Str
  trackedTime : Nat
  deriving DecidableEq

def Project.effName (p : Project) : Str := p.name.getD unknownName

/-- Stable descending sort by a numeric key (Python
`sort(key=..., reverse=True)`). -/
def sortDesc (key : α → Nat) (l : List α) : List α :=
  l.insertionSort (fun a b => key b ≤ key a)

/-- Python `"\n".join(lines)`. -/
def joinLines : List Str → Str
  | [] => []
  | l :: ls =>
    match ls with
    | [] => l
    | _ :: _ => l ++ '\n' :: joinLines ls

/-- The section marker: the fixed prefix of the report's header line, which
is also the literal head of the merge pattern
`r"(\n## 📊 Rize Metrics.*?)(\n## |\Z)"`. -/
def marker : Str := "\n## 📊 Rize Metrics".toList

/-- The second alternative of the pattern's group 2: the next top-level
header `"\n## "`. -/
def nextHdr : Str := "\n## ".toList

/-- The header line `"\n## 📊 Rize Metrics ({now})\n"` where `now` is
`datetime.datetime.now().strftime('%H:%M')`. -/
def headerLine (now : Str) : Str :=
  "\n## 📊 Rize Metrics (".toList ++ now ++ ")\n".toList

/-- The row `"| {name} | {time_str} |"` for a category. -/
def catRow (c : Category) : Str :=
  "| ".toList ++ c.effName ++ " | ".toList ++ format_time c.trackedTime ++ " |".toList

/-- The row `"| {name} | {time_str} |"` for a project. -/
def projRow (p : Project) : Str :=
  "| ".toList ++ p.effName ++ " | ".toList ++ format_time p.trackedTime ++ " |".toList

/-- The category table lines (`if categories:` block); input is the already
sorted list. -/
def catBlockLines (sorted : List Category) : List Str :=
  if sorted = [] then []
  else "### Top Categories".toList :: "| Category | Time |".toList ::
    "| :--- | :--- |".toList :: ((sorted.take 10).map catRow ++ ["\n".toList])

/-- The project table lines (`if projects:` block); input is the already
sorted list. -/
def projBlockLines (sorted : List Project) : List Str :=
  if sorted = [] then []
  else "### Top Projects".toList :: "| Project | Time |".toList ::
    "| :--- | :--- |".toList :: ((sorted.take 10).map projRow ++ ["\n".toList])

/-- All report lines in order. -/
def reportLines (now : Str) (cats : List Category) (projs : List Project) : List Str :=
  headerLine now ::
    (catBlockLines (sortDesc Category.trackedTime cats) ++
     projBlockLines (sortDesc Project.trackedTime projs))

/-- Python `new_report = "\n".join(report_lines)`. -/
def renderReport (now : Str) (cats : List Category) (projs : List Project) : Str :=
  joinLines (reportLines now cats projs)

/-! ## The merge (fetch_data.py lines 225-237)

```python
pattern = r"(\n## 📊 Rize Metrics.*?)(\n## |\Z)"
if re.search(pattern, post.content, re.DOTALL):
    post.content = re.sub(pattern, f"{new_report}\\2", post.content, flags=re.DOTALL, count=1)
else:
    post.content = post.content + "\n" + new_report
```

With DOTALL and a lazy `.*?`, the (single, `count=1`) substitution acts on
the leftmost match: the span starts at the first occurrence of the literal
`"\n## 📊 Rize Metrics"` and group 2 is matched at the earliest possible
position at or after the end of that literal — the first following
occurrence of `"\n## "`, or end of string (`\Z`) if there is none.  The
span's group-1 part is replaced by `new_report` and group 2 (the following
header, if any) is kept.  This is embedded as an explicit first-occurrence
scan and splice. -/

/-- Index of the first occurrence of `pat` as a contiguous substring, if
any (positions `0 .. s.length`). -/
def findSub (pat : Str) : Str → Option Nat
  | [] => if pat = [] then some 0 else none
  | c :: s => if pat.isPrefixOf (c :: s) then some 0 else (findSub pat s).map (· + 1)

/-- The merge step for a given section pattern (the daily and weekly
routines differ only in the literal marker): replace the leftmost matched
span, or append.  Both routines share the group-2 boundary `"\n## "`. -/
def mergeSection (pat : Str) (new_report content : Str) : Str :=
  match findSub pat content with
  | none => content ++ "\n".toList ++ new_report
  | some i =>
    let rest := content.drop (i + pat.length)
    let j := match findSub nextHdr rest with
      | none => rest.length
      | some j => j
    content.take i ++ new_report ++ rest.drop j

/-- The daily merge of `update_daily_note` (lines 225-237). -/
def mergeReport (new_report content : Str) : Str :=
  mergeSection marker new_report content

/-- The weekly section marker: the literal head of the pattern
`r"(\n## 📊 Rize Weekly Metrics.*?)(\n## |\Z)"` of `update_weekly_review`
(line 362). -/
def weeklyMarker : Str := "\n## 📊 Rize Weekly Metrics".toList

/-- The weekly merge of `update_weekly_review` (lines 362-369). -/
def mergeWeeklyReport (new_report content : Str) : Str :=
  mergeSection weeklyMarker new_report content

/-- A document as the core sees it: frontmatter metadata plus body. -/
structure Doc where
  meta : MetaMap
  content : Str

/-- The pure document transformation performed by one run of
`update_daily_note` on an existing document: metadata assignments plus the
render-and-merge of the body.  `nowClock` is the `%H:%M` timestamp shown in
the report header; `nowSync` the ISO timestamp written to `rize_last_sync`.
File input and output (and the creation of a missing note) are the document
store's concern and are abstracted away. -/
def update_daily_note (nowClock nowSync : Str) (metrics : Metrics)
    (projects : List Project) (doc : Doc) : Doc :=
  { meta := update_daily_note_metadata doc.meta metrics nowSync
    content := mergeReport (renderReport nowClock metrics.categories projects) doc.content }

/-- Number of occurrences of `pat` as a contiguous substring of `s`
(positions `0 .. s.length`). -/
def countOcc (pat s : Str) : Nat :=
  ((Finset.range (s.length + 1)).filter (fun k => pat <+: s.drop k)).card

/-! ## Substring toolkit -/

theorem pref_mono {p a : Str} (b : Str) (h : p <+: a) : p <+: a ++ b := by
  obtain ⟨t, rfl⟩ := h
  exact ⟨t ++ b, by simp⟩

theorem pref_of_append_left {p a b : Str} (h : p <+: a ++ b) (hl : p.length ≤ a.length) :
    p <+: a := by
  have hp := List.prefix_iff_eq_take.mp h
  rw [List.take_append_eq_append_take, Nat.sub_eq_zero_of_le hl, List.take_zero,
    List.append_nil] at hp
  exact List.prefix_iff_eq_take.mpr hp

theorem pref_drop_of_append {p a b : Str} (h : p <+: a ++ b) (hl : a.length < p.length) :
    p.drop a.length <+: b := by
  have hp := List.prefix_iff_eq_take.mp h
  rw [List.take_append_eq_append_take, List.take_of_length_le (le_of_lt hl)] at hp
  have hd : p.drop a.length = b.take (p.length - a.length) := by
    conv_lhs => rw [hp]
    rw [List.drop_left]
  rw [hd]
  exact List.take_prefix _ _

theorem head?_of_pref {p s : Str} (h : p <+: s) (hne : p ≠ []) : s.head? = p.head? := by
  obtain ⟨t, rfl⟩ := h
  cases p with
  | nil => exact absurd rfl hne
  | cons c cs => rfl

theorem getElem?_of_pref {p s : Str} (h : p <+: s) {i : Nat} (hi : i < p.length) :
    s[i]? = p[i]? := by
  obtain ⟨t, rfl⟩ := h
  exact List.getElem?_append_left hi

theorem occ_bound {pat s : Str} {k : Nat} (hp : pat ≠ []) (h : pat <+: s.drop k) :
    k < s.length := by
  by_contra hk
  rw [List.drop_of_length_le (by omega)] at h
  exact hp (List.prefix_nil.mp h)

theorem noOcc_of_bounded {pat s : Str} (hp : pat ≠ [])
    (h : ∀ k, k < s.length → ¬ pat <+: s.drop k) : ∀ k, ¬ pat <+: s.drop k :=
  fun k hk => h k (occ_bound hp hk) hk

/-- Characterisation of `findSub`: it returns the first occurrence. -/
theorem findSub_eq_some_iff {pat : Str} : ∀ {s : Str} {i : Nat},
    findSub pat s = some i ↔ (pat <+: s.drop i ∧ ∀ k, k < i → ¬ pat <+: s.drop k) := by
  intro s
  induction s with
  | nil =>
    intro i
    by_cases hp : pat = []
    · subst hp
      constructor
      · intro h
        have hi : (0 : ℕ) = i := by simpa [findSub] using h
        subst hi
        exact ⟨by simp, by omega⟩
      · rintro ⟨-, h2⟩
        rcases Nat.eq_zero_or_pos i with rfl | hi
        · simp [findSub]
        · exact absurd (by simp : ([] : Str) <+: List.drop 0 []) (h2 0 hi)
    · constructor
      · intro h
        rw [show findSub pat [] = if pat = [] then some 0 else none from rfl, if_neg hp] at h
        exact absurd h (by simp)
      · rintro ⟨h1, -⟩
        rw [List.drop_nil] at h1
        exact absurd (List.prefix_nil.mp h1) hp
  | cons c s ih =>
    intro i
    have hunf : findSub pat (c :: s) =
        if pat.isPrefixOf (c :: s) then some 0 else (findSub pat s).map (· + 1) := rfl
    by_cases hp : pat <+: (c :: s)
    · rw [hunf, if_pos (by simpa using hp)]
      constructor
      · intro h
        have hi : i = 0 := by simpa using h.symm
        subst hi
        exact ⟨by simpa using hp, by omega⟩
      · rintro ⟨h1, h2⟩
        rcases Nat.eq_zero_or_pos i with rfl | hi
        · rfl
        · exact absurd (by simpa using hp) (h2 0 hi)
    · rw [hunf, if_neg (by simpa using hp)]
      constructor
      · intro h
        obtain ⟨j, hj, rfl⟩ := Option.map_eq_some'.mp h
        obtain ⟨hj1, hj2⟩ := ih.mp hj
        refine ⟨by simpa using hj1, ?_⟩
        intro k hk
        cases k with
        | zero => simpa using hp
        | succ k' => exact fun hc => hj2 k' (by omega) (by simpa using hc)
      · rintro ⟨h1, h2⟩
        cases i with
        | zero => exact absurd (by simpa using h1) hp
        | succ i' =>
          rw [Option.map_eq_some']
          refine ⟨i', ih.mpr ⟨by simpa using h1, ?_⟩, rfl⟩
          intro k hk hc
          exact h2 (k + 1) (by omega) (by simpa using hc)

theorem findSub_eq_none_iff {pat : Str} : ∀ {s : Str},
    findSub pat s = none ↔ ∀ k, ¬ pat <+: s.drop k := by
  intro s
  induction s with
  | nil =>
    by_cases hp : pat = []
    · subst hp
      constructor
      · intro h
        rw [show findSub ([] : Str) [] = some 0 from rfl] at h
        exact absurd h (by simp)
      · intro h
        exact absurd (by simp : ([] : Str) <+: List.drop 0 []) (h 0)
    · constructor
      · intro h k hk
        rw [List.drop_nil] at hk
        exact hp (List.prefix_nil.mp hk)
      · intro h
        rw [show findSub pat [] = if pat = [] then some 0 else none from rfl, if_neg hp]
  | cons c s ih =>
    have hunf : findSub pat (c :: s) =
        if pat.isPrefixOf (c :: s) then some 0 else (findSub pat s).map (· + 1) := rfl
    by_cases hp : pat <+: (c :: s)
    · rw [hunf, if_pos (by simpa using hp)]
      constructor
      · intro h; exact absurd h (by simp)
      · intro h; exact absurd (by simpa using hp) (h 0)
    · rw [hunf, if_neg (by simpa using hp), Option.map_eq_none', ih]
      constructor
      · intro h k
        cases k with
        | zero => simpa using hp
        | succ k' => simpa using h k'
      · intro h k
        simpa using h (k + 1)

theorem countOcc_eq_one_iff {pat s : Str} (hp : pat ≠ []) :
    countOcc pat s = 1 ↔ ∃ i, pat <+: s.drop i ∧ ∀ k, pat <+: s.drop k → k = i := by
  unfold countOcc
  rw [Finset.card_eq_one]
  constructor
  · rintro ⟨a, ha⟩
    have hmem : a ∈ (Finset.range (s.length + 1)).filter (fun k => pat <+: s.drop k) := by
      rw [ha]; exact Finset.mem_singleton_self a
    refine ⟨a, (Finset.mem_filter.mp hmem).2, ?_⟩
    intro k hk
    have hk2 : k ∈ (Finset.range (s.length + 1)).filter (fun k => pat <+: s.drop k) :=
      Finset.mem_filter.mpr ⟨Finset.mem_range.mpr (by have := occ_bound hp hk; omega), hk⟩
    rw [ha] at hk2
    exact Finset.mem_singleton.mp hk2
  · rintro ⟨i, hi, huniq⟩
    refine ⟨i, Finset.eq_singleton_iff_unique_mem.mpr ⟨?_, ?_⟩⟩
    · exact Finset.mem_filter.mpr
        ⟨Finset.mem_range.mpr (by have := occ_bound hp hi; omega), hi⟩
    · intro x hx
      exact huniq x (Finset.mem_filter.mp hx).2

theorem countOcc_eq_zero_iff {pat s : Str} (hp : pat ≠ []) :
    countOcc pat s = 0 ↔ ∀ k, ¬ pat <+: s.drop k := by
  unfold countOcc
  rw [Finset.card_eq_zero, Finset.filter_eq_empty_iff]
  constructor
  · intro h k hk
    exact h (Finset.mem_range.mpr (by have := occ_bound hp hk; omega)) hk
  · intro h k _
    exact h k

theorem countOcc_le_one_unique {pat s : Str} (h : countOcc pat s ≤ 1) (hp : pat ≠ [])
    {j k : Nat} (hj : pat <+: s.drop j) (hk : pat <+: s.drop k) : j = k := by
  unfold countOcc at h
  refine Finset.card_le_one.mp h j ?_ k ?_
  · exact Finset.mem_filter.mpr ⟨Finset.mem_range.mpr (by have := occ_bound hp hj; omega), hj⟩
  · exact Finset.mem_filter.mpr ⟨Finset.mem_range.mpr (by have := occ_bound hp hk; omega), hk⟩

/-- An occurrence straddling the junction of `a ++ b` forces the first
character of `b` to be a character of `pat` at positive index. -/
theorem junction_char {p a b : Str} {k : Nat} (h : p <+: (a ++ b).drop k)
    (hk : k < a.length) (hstr : a.length < k + p.length) :
    b[0]? = p[a.length - k]? := by
  rw [List.drop_append_eq_append_drop, Nat.sub_eq_zero_of_le (le_of_lt hk),
    List.drop_zero] at h
  have hlt : (a.drop k).length < p.length := by
    rw [List.length_drop]; omega
  have h2 := pref_drop_of_append h hlt
  have hne : p.drop (a.drop k).length ≠ [] := by
    intro hc
    have := List.drop_eq_nil_iff.mp hc
    omega
  have h3 := head?_of_pref h2 hne
  rw [List.head?_eq_getElem?, List.head?_eq_getElem?, List.getElem?_drop,
    List.length_drop, Nat.add_zero] at h3
  exact h3

/-- No occurrence of `p` can start strictly inside `a` in `a ++ b` when `a`
contains none and `b`'s first character matches no positive-index character
of `p`. -/
theorem no_left_occ {p a b : Str}
    (ha : ∀ k, ¬ p <+: a.drop k)
    (hb : ∀ t, 1 ≤ t → t < p.length → b[0]? ≠ p[t]?) :
    ∀ k, k < a.length → ¬ p <+: (a ++ b).drop k := by
  intro k hk h
  by_cases hfit : a.length < k + p.length
  · have hchar := junction_char h hk hfit
    have h1t : 1 ≤ a.length - k := by omega
    have htlt : a.length - k < p.length := by omega
    exact hb _ h1t htlt hchar
  · rw [List.drop_append_eq_append_drop, Nat.sub_eq_zero_of_le (le_of_lt hk),
      List.drop_zero] at h
    have := pref_of_append_left h (by rw [List.length_drop]; omega)
    exact ha k this

/-- Occurrence positions at or past `a` in `a ++ b` shift into `b`. -/
theorem drop_append_right {a b : Str} {k : Nat} (hk : a.length ≤ k) :
    (a ++ b).drop k = b.drop (k - a.length) := by
  rw [List.drop_append_eq_append_drop, List.drop_of_length_le hk, List.nil_append]

theorem marker_ne_nil : marker ≠ [] := by decide

theorem nextHdr_ne_nil : nextHdr ≠ [] := by decide

theorem nextHdr_pref_marker : nextHdr <+: marker := by decide

theorem marker_head : marker[0]? = some '\n' := by decide

/-- Every character of `marker` after position 0 differs from `'\n'`. -/
theorem marker_tail_no_nl : ∀ t, t < marker.length → 1 ≤ t → marker[t]? ≠ some '\n' := by
  decide

/-- Every character of `nextHdr` after position 0 differs from `'\n'`. -/
theorem nextHdr_tail_no_nl : ∀ t, t < nextHdr.length → 1 ≤ t → nextHdr[t]? ≠ some '\n' := by
  decide

/-! ## Render structure lemmas

The rendered report is the marker followed by a `"\n"`-join of lines.  Each
line after the header either contains no `'\n'` at all or (the blank
pseudo-line `"\n"`) only as its final character, and no line starts with
`"## "`; hence `"\n## "` never occurs in the report after the marker. -/

/-- A line is okay when it does not start with `"## "` and contains `'\n'`
at most as its final character. -/
def LineOkay (l : Str) : Prop := ¬ ("## ".toList <+: l) ∧ '\n' ∉ l.dropLast

instance (l : Str) : Decidable (LineOkay l) := by
  unfold LineOkay; infer_instance

theorem joinLines_cons_cons (l m : Str) (ms : List Str) :
    joinLines (l :: m :: ms) = l ++ '\n' :: joinLines (m :: ms) := rfl

theorem hashPre_not_joinLines {ls : List Str} (h : ∀ l ∈ ls, LineOkay l) :
    ¬ ("## ".toList <+: joinLines ls) := by
  cases ls with
  | nil =>
    intro hc
    rw [show joinLines [] = [] from rfl] at hc
    exact (by decide : "## ".toList ≠ []) (List.prefix_nil.mp hc)
  | cons l ls' =>
    cases ls' with
    | nil => exact (h l (by simp)).1
    | cons m ms =>
      intro hc
      rw [joinLines_cons_cons] at hc
      by_cases hfit : "## ".toList.length ≤ l.length
      · exact (h l (by simp)).1 (pref_of_append_left hc hfit)
      · have hlt : l.length < "## ".toList.length := by omega
        have h2 := pref_drop_of_append hc hlt
        have hne : "## ".toList.drop l.length ≠ [] := by
          intro hcc
          have := List.drop_eq_nil_iff.mp hcc
          omega
        have h3 := head?_of_pref h2 hne
        rw [List.head?_cons, List.head?_eq_getElem?, List.getElem?_drop, Nat.add_zero] at h3
        have hno : ∀ t, t < 3 → "## ".toList[t]? ≠ some '\n' := by decide
        exact hno l.length (by simpa using hlt) h3.symm

theorem no_hdr_joinLines {ls : List Str} (h : ∀ l ∈ ls, LineOkay l) :
    ∀ k, ¬ nextHdr <+: (joinLines ls).drop k := by
  induction ls with
  | nil =>
    intro k hc
    rw [show joinLines [] = [] from rfl, List.drop_nil] at hc
    exact nextHdr_ne_nil (List.prefix_nil.mp hc)
  | cons l ls ih =>
    cases ls with
    | nil =>
      intro k hc
      rw [show joinLines [l] = l from rfl] at hc
      have hk := occ_bound nextHdr_ne_nil hc
      have hlen : nextHdr.length ≤ l.length - k := by
        have := hc.length_le
        rw [List.length_drop] at this
        omega
      have h4 : nextHdr.length = 4 := by decide
      have h0 : l[k]? = some '\n' := by
        have := getElem?_of_pref hc (show 0 < nextHdr.length by decide)
        rw [List.getElem?_drop, Nat.add_zero] at this
        rw [this]; decide
      apply (h l (by simp)).2
      rw [List.dropLast_eq_take]
      have : (l.take (l.length - 1))[k]? = some '\n' := by
        rw [List.getElem?_take_of_lt (by omega)]
        exact h0
      exact List.getElem?_mem this
    | cons m ms =>
      intro k hc
      rw [joinLines_cons_cons] at hc
      rcases Nat.lt_trichotomy k l.length with hk | hk | hk
      · have h0 : l[k]? = some '\n' := by
          have := getElem?_of_pref hc (show 0 < nextHdr.length by decide)
          rw [List.getElem?_drop, Nat.add_zero, List.getElem?_append_left hk] at this
          rw [this]; decide
        by_cases hk1 : k + 1 < l.length
        · apply (h l (by simp)).2
          rw [List.dropLast_eq_take]
          have : (l.take (l.length - 1))[k]? = some '\n' := by
            rw [List.getElem?_take_of_lt (by omega)]
            exact h0
          exact List.getElem?_mem this
        · have h1 : (l ++ '\n' :: joinLines (m :: ms))[k + 1]? = nextHdr[1]? := by
            have := getElem?_of_pref hc (show 1 < nextHdr.length by decide)
            rw [List.getElem?_drop] at this
            exact this
          have hkeq : k + 1 = l.length := by omega
          rw [List.getElem?_append_right (by omega), hkeq, Nat.sub_self] at h1
          have : some '\n' = nextHdr[1]? := by simpa using h1
          rw [show nextHdr[1]? = some '#' from by decide] at this
          simp at this
      · subst hk
        rw [drop_append_right (le_refl _), Nat.sub_self, List.drop_zero] at hc
        rw [show nextHdr = '\n' :: "## ".toList from rfl] at hc
        have h2 := (List.cons_prefix_cons.mp hc).2
        exact hashPre_not_joinLines (fun x hx => h x (by simp [hx])) h2
      · rw [drop_append_right (le_of_lt hk)] at hc
        obtain ⟨n, hn⟩ : ∃ n, k - l.length = n + 1 := ⟨k - l.length - 1, by omega⟩
        rw [hn, List.drop_succ_cons] at hc
        exact ih (fun x hx => h x (by simp [hx])) n hc

theorem digitChar_ne_nl (n : Nat) : digitChar n ≠ '\n' := by
  have h : ∀ d, d < 10 → Char.ofNat (48 + d) ≠ '\n' := by decide
  unfold digitChar
  exact h (n % 10) (Nat.mod_lt _ (by decide))

theorem natDigitsAux_no_nl : ∀ fuel n, '\n' ∉ natDigitsAux fuel n := by
  intro fuel
  induction fuel with
  | zero => intro n; simp [natDigitsAux]
  | succ f ih =>
    intro n
    unfold natDigitsAux
    split
    · simp
    · intro hc
      rcases List.mem_append.mp hc with h | h
      · exact ih _ h
      · exact digitChar_ne_nl n (List.mem_singleton.mp h).symm

theorem natRepr_no_nl (n : Nat) : '\n' ∉ natRepr n := by
  unfold natRepr
  split
  · decide
  · exact natDigitsAux_no_nl n n

theorem format_time_no_nl (n : Nat) : '\n' ∉ format_time n := by
  intro hc
  unfold format_time at hc
  simp only [List.mem_append] at hc
  rcases hc with ((h | h) | h) | h
  · exact natRepr_no_nl _ h
  · revert h; decide
  · exact natRepr_no_nl _ h
  · revert h; decide

theorem lineOkay_of_no_nl {l : Str} (h1 : ¬ ("## ".toList <+: l)) (h2 : '\n' ∉ l) :
    LineOkay l := by
  refine ⟨h1, fun hc => h2 ?_⟩
  rw [List.dropLast_eq_take] at hc
  exact List.mem_of_mem_take hc

theorem catRow_shape (c : Category) :
    catRow c = '|' :: ' ' ::
      (c.effName ++ (" | ".toList ++ (format_time c.trackedTime ++ " |".toList))) := by
  unfold catRow
  simp [List.append_assoc]

theorem projRow_shape (p : Project) :
    projRow p = '|' :: ' ' ::
      (p.effName ++ (" | ".toList ++ (format_time p.trackedTime ++ " |".toList))) := by
  unfold projRow
  simp [List.append_assoc]

theorem lineOkay_catRow (c : Category) (h : '\n' ∉ c.effName) : LineOkay (catRow c) := by
  apply lineOkay_of_no_nl
  · rw [catRow_shape, show "## ".toList = '#' :: "# ".toList from rfl]
    intro hc
    exact absurd (List.cons_prefix_cons.mp hc).1 (by decide)
  · rw [catRow_shape]
    intro hc
    simp only [List.mem_cons, List.mem_append] at hc
    rcases hc with h1 | h1 | h1 | h1 | h1 | h1
    · exact absurd h1 (by decide)
    · exact absurd h1 (by decide)
    · exact h h1
    · exact absurd h1 (by decide)
    · exact format_time_no_nl _ h1
    · exact absurd h1 (by decide)

theorem lineOkay_projRow (p : Project) (h : '\n' ∉ p.effName) : LineOkay (projRow p) := by
  apply lineOkay_of_no_nl
  · rw [projRow_shape, show "## ".toList = '#' :: "# ".toList from rfl]
    intro hc
    exact absurd (List.cons_prefix_cons.mp hc).1 (by decide)
  · rw [projRow_shape]
    intro hc
    simp only [List.mem_cons, List.mem_append] at hc
    rcases hc with h1 | h1 | h1 | h1 | h1 | h1
    · exact absurd h1 (by decide)
    · exact absurd h1 (by decide)
    · exact h h1
    · exact absurd h1 (by decide)
    · exact format_time_no_nl _ h1
    · exact absurd h1 (by decide)

/-- The part of the header line after the marker. -/
def tailZero (now : Str) : Str := " (".toList ++ now ++ ")\n".toList

theorem headerLine_eq (now : Str) : headerLine now = marker ++ tailZero now := by
  unfold headerLine tailZero marker
  rw [show "\n## 📊 Rize Metrics (".toList =
    "\n## 📊 Rize Metrics".toList ++ " (".toList from by decide]
  simp [List.append_assoc]

theorem renderReport_shape (now : Str) (cats : List Category) (projs : List Project) :
    renderReport now cats projs =
      marker ++ joinLines (tailZero now ::
        (catBlockLines (sortDesc Category.trackedTime cats) ++
         projBlockLines (sortDesc Project.trackedTime projs))) := by
  unfold renderReport reportLines
  cases hb : catBlockLines (sortDesc Category.trackedTime cats) ++
      projBlockLines (sortDesc Project.trackedTime projs) with
  | nil =>
    rw [show joinLines [headerLine now] = headerLine now from rfl,
      show joinLines [tailZero now] = tailZero now from rfl, headerLine_eq]
  | cons x xs =>
    rw [joinLines_cons_cons, joinLines_cons_cons, headerLine_eq, List.append_assoc]

theorem lineOkay_tailZero (now : Str) (h : '\n' ∉ now) : LineOkay (tailZero now) := by
  constructor
  · rw [show tailZero now = ' ' :: ('(' :: (now ++ ")\n".toList)) from by
      unfold tailZero; simp,
      show "## ".toList = '#' :: "# ".toList from rfl]
    intro hc
    exact absurd (List.cons_prefix_cons.mp hc).1 (by decide)
  · unfold tailZero
    rw [show " (".toList ++ now ++ ")\n".toList =
      (" (".toList ++ now ++ [')']) ++ ['\n'] from by simp [List.append_assoc],
      List.dropLast_concat]
    intro hc
    simp only [List.mem_append] at hc
    rcases hc with (h1 | h1) | h1
    · exact absurd h1 (by decide)
    · exact h h1
    · exact absurd h1 (by decide)

theorem lineOkay_catBlock {l : Str} {cs : List Category}
    (hnames : ∀ c ∈ cs, '\n' ∉ c.effName) (hl : l ∈ catBlockLines cs) : LineOkay l := by
  unfold catBlockLines at hl
  split at hl
  · simp at hl
  · simp only [List.mem_cons, List.mem_append, List.mem_map, List.mem_singleton] at hl
    rcases hl with rfl | rfl | rfl | ⟨c, hc, rfl⟩ | rfl | hl0
    · decide
    · decide
    · decide
    · exact lineOkay_catRow c (hnames c (List.mem_of_mem_take hc))
    · decide
    · exact absurd hl0 (List.not_mem_nil l)

theorem lineOkay_projBlock {l : Str} {ps : List Project}
    (hnames : ∀ p ∈ ps, '\n' ∉ p.effName) (hl : l ∈ projBlockLines ps) : LineOkay l := by
  unfold projBlockLines at hl
  split at hl
  · simp at hl
  · simp only [List.mem_cons, List.mem_append, List.mem_map, List.mem_singleton] at hl
    rcases hl with rfl | rfl | rfl | ⟨p, hp, rfl⟩ | rfl | hl0
    · decide
    · decide
    · decide
    · exact lineOkay_projRow p (hnames p (List.mem_of_mem_take hp))
    · decide
    · exact absurd hl0 (List.not_mem_nil l)

theorem sortDesc_perm {α : Type} (key : α → Nat) (l : List α) : (sortDesc key l).Perm l :=
  List.perm_insertionSort _ _

/-- The header pattern `"\n## "` does not occur anywhere in the rendered report after its
leading marker (provided the clock string and the displayed names contain
no newline, as they cannot: the clock is `%H:%M` and the names come from
single-line fields). -/
theorem render_no_hdr (now : Str) (cats : List Category) (projs : List Project)
    (hnow : '\n' ∉ now)
    (hcats : ∀ c ∈ cats, '\n' ∉ c.effName)
    (hprojs : ∀ p ∈ projs, '\n' ∉ p.effName) :
    ∀ k, ¬ nextHdr <+: ((renderReport now cats projs).drop marker.length).drop k := by
  rw [renderReport_shape, List.drop_left]
  apply no_hdr_joinLines
  intro l hl
  rcases List.mem_cons.mp hl with rfl | hl
  · exact lineOkay_tailZero now hnow
  · rcases List.mem_append.mp hl with hl | hl
    · refine lineOkay_catBlock (fun c hc => ?_) hl
      exact hcats c ((sortDesc_perm _ _).mem_iff.mp hc)
    · refine lineOkay_projBlock (fun p hp => ?_) hl
      exact hprojs p ((sortDesc_perm _ _).mem_iff.mp hp)

theorem render_marker_pref (now : Str) (cats : List Category) (projs : List Project) :
    marker <+: renderReport now cats projs := by
  rw [renderReport_shape]
  exact List.prefix_append _ _

/-- The marker occurs in the rendered report only at position 0. -/
theorem render_marker_unique (now : Str) (cats : List Category) (projs : List Project)
    (hnow : '\n' ∉ now)
    (hcats : ∀ c ∈ cats, '\n' ∉ c.effName)
    (hprojs : ∀ p ∈ projs, '\n' ∉ p.effName) :
    ∀ k, marker <+: (renderReport now cats projs).drop k → k = 0 := by
  intro k hk
  by_contra hk0
  have hk1 : 1 ≤ k := by omega
  by_cases hkm : k < marker.length
  · have hRk : (renderReport now cats projs)[k]? = some '\n' := by
      have := getElem?_of_pref hk (show 0 < marker.length by decide)
      rw [List.getElem?_drop, Nat.add_zero, marker_head] at this
      exact this
    have hRk2 : (renderReport now cats projs)[k]? = marker[k]? :=
      getElem?_of_pref (render_marker_pref now cats projs) hkm
    exact marker_tail_no_nl k hkm hk1 (hRk2 ▸ hRk)
  · have h2 : nextHdr <+: (renderReport now cats projs).drop k :=
      nextHdr_pref_marker.trans hk
    have h3 : ((renderReport now cats projs).drop marker.length).drop (k - marker.length) =
        (renderReport now cats projs).drop k := by
      rw [List.drop_drop]
      congr 1
      omega
    exact render_no_hdr now cats projs hnow hcats hprojs (k - marker.length) (h3 ▸ h2)

/-! ## Merge lemmas -/

theorem marker_len_pos : 0 < marker.length := by decide

/-- An occurrence inside the `take i` part lifts to an occurrence of the
whole string. -/
theorem occ_of_take {pat content : Str} {i k : Nat}
    (h : pat <+: (content.take i).drop k) : pat <+: content.drop k := by
  rw [List.drop_take] at h
  exact h.trans ( List.take_prefix _ _)

/-- Unfolding of `mergeSection` in the found case. -/
theorem mergeSection_found {pat new content : Str} {i : Nat}
    (hfind : findSub pat content = some i) :
    mergeSection pat new content =
      content.take i ++ new ++
        (content.drop (i + pat.length)).drop
          (match findSub nextHdr (content.drop (i + pat.length)) with
           | none => (content.drop (i + pat.length)).length
           | some j => j) := by
  unfold mergeSection
  rw [hfind]

/-- Unfolding of `mergeSection` in the not-found case. -/
theorem mergeSection_none {pat new content : Str} (hfind : findSub pat content = none) :
    mergeSection pat new content = content ++ "\n".toList ++ new := by
  unfold mergeSection
  rw [hfind]

/-- Unfolding of `mergeReport` in the found case. -/
theorem mergeReport_found {new content : Str} {i : Nat}
    (hfind : findSub marker content = some i) :
    mergeReport new content =
      content.take i ++ new ++
        (content.drop (i + marker.length)).drop
          (match findSub nextHdr (content.drop (i + marker.length)) with
           | none => (content.drop (i + marker.length)).length
           | some j => j) :=
  mergeSection_found hfind

/-- Decomposition of the replace branch of `mergeSection` when the document
has a unique pattern occurrence at `i`: for every report, the result is
`take i ++ report ++ suffix`, where the suffix either starts with the next
`"\n## "` header (the kept group 2) or is empty. -/
theorem mergeSection_replace_decomp {pat content : Str} {i : Nat}
    (hocc : pat <+: content.drop i)
    (huniq : ∀ k, pat <+: content.drop k → k = i) :
    ∃ j, (nextHdr <+: (content.drop (i + pat.length)).drop j ∨
        (content.drop (i + pat.length)).drop j = []) ∧
      ∀ new, mergeSection pat new content =
        content.take i ++ new ++ (content.drop (i + pat.length)).drop j := by
  have hfind : findSub pat content = some i :=
    findSub_eq_some_iff.mpr ⟨hocc, fun k hk hc => absurd (huniq k hc) (by omega)⟩
  cases hfs : findSub nextHdr (content.drop (i + pat.length)) with
  | none =>
    refine ⟨(content.drop (i + pat.length)).length, Or.inr ?_, fun new => ?_⟩
    · exact List.drop_of_length_le (le_refl _)
    · rw [mergeSection_found hfind, hfs]
  | some j =>
    refine ⟨j, Or.inl ?_, fun new => ?_⟩
    · exact (findSub_eq_some_iff.mp hfs).1
    · rw [mergeSection_found hfind, hfs]

/-- Decomposition of the replace branch of `mergeReport`. -/
theorem mergeReport_replace_decomp {content : Str} {i : Nat}
    (hocc : marker <+: content.drop i)
    (huniq : ∀ k, marker <+: content.drop k → k = i) :
    ∃ j, (nextHdr <+: (content.drop (i + marker.length)).drop j ∨
        (content.drop (i + marker.length)).drop j = []) ∧
      ∀ new, mergeReport new content =
        content.take i ++ new ++ (content.drop (i + marker.length)).drop j :=
  mergeSection_replace_decomp hocc huniq

/-- Merging a second report into an already-merged document replaces
exactly the first report, giving the same result as merging the second
report directly: the core of idempotence. -/
theorem mergeReport_idem {content R1 R2 : Str} {i : Nat}
    (hocc : marker <+: content.drop i)
    (huniq : ∀ k, marker <+: content.drop k → k = i)
    (hR1 : marker <+: R1)
    (hR1noHdr : ∀ k, ¬ nextHdr <+: (R1.drop marker.length).drop k) :
    mergeReport R2 (mergeReport R1 content) = mergeReport R2 content := by
  obtain ⟨j, hsuf, hmerge⟩ := mergeReport_replace_decomp hocc huniq
  have hilen : i < content.length := occ_bound marker_ne_nil hocc
  have hpre : (content.take i).length = i := by
    rw [List.length_take]
    omega
  have hR1ne : R1 ≠ [] := by
    intro hc
    rw [hc, List.prefix_nil] at hR1
    exact marker_ne_nil hR1
  have hmlen : marker.length ≤ R1.length := hR1.length_le
  set pre := content.take i with hpre_def
  set suf := (content.drop (i + marker.length)).drop j with hsuf_def
  rw [hmerge R1, List.append_assoc]
  -- the merged document is pre ++ (R1 ++ suf)
  have hfind2 : findSub marker (pre ++ (R1 ++ suf)) = some i := by
    apply findSub_eq_some_iff.mpr
    constructor
    · rw [drop_append_right (by omega : pre.length ≤ i), hpre, Nat.sub_self, List.drop_zero]
      exact pref_mono _ hR1
    · intro k hk
      have hnl : ∀ t, 1 ≤ t → t < marker.length → (R1 ++ suf)[0]? ≠ marker[t]? := by
        intro t h1t htm hc
        have h0 : (R1 ++ suf)[0]? = R1[0]? :=
          List.getElem?_append_left (by cases R1 with
            | nil => exact absurd rfl hR1ne
            | cons c cs => simp)
        have h1 : R1[0]? = marker[0]? := getElem?_of_pref hR1 marker_len_pos
        rw [h0, h1, marker_head] at hc
        exact marker_tail_no_nl t htm h1t hc.symm
      have ha : ∀ k', ¬ marker <+: pre.drop k' := by
        intro k' hk'
        have hlen := hk'.length_le
        rw [List.length_drop, hpre] at hlen
        have := huniq k' (occ_of_take hk')
        have := marker_len_pos
        omega
      exact no_left_occ ha hnl k (by omega)
  have htake2 : (pre ++ (R1 ++ suf)).take i = pre := List.take_left' hpre
  have hdrop2 : (pre ++ (R1 ++ suf)).drop (i + marker.length) =
      R1.drop marker.length ++ suf := by
    rw [drop_append_right (by omega : pre.length ≤ i + marker.length), hpre]
    rw [show i + marker.length - i = marker.length by omega]
    rw [List.drop_append_eq_append_drop, Nat.sub_eq_zero_of_le hmlen, List.drop_zero]
  rcases hsuf with hsufh | hsufe
  · -- the suffix starts with the kept "\n## " header
    have hfs2 : findSub nextHdr (R1.drop marker.length ++ suf) =
        some (R1.drop marker.length).length := by
      apply findSub_eq_some_iff.mpr
      constructor
      · rw [drop_append_right (le_refl _), Nat.sub_self, List.drop_zero]
        exact hsufh
      · intro k hk
        have hnl : ∀ t, 1 ≤ t → t < nextHdr.length → suf[0]? ≠ nextHdr[t]? := by
          intro t h1t htm hc
          have h1 : suf[0]? = nextHdr[0]? :=
            getElem?_of_pref hsufh (by decide)
          rw [h1, show nextHdr[0]? = some '\n' from by decide] at hc
          exact nextHdr_tail_no_nl t htm h1t hc.symm
        exact no_left_occ hR1noHdr hnl k hk
    rw [mergeReport_found hfind2, hdrop2, hfs2, drop_append_right (le_refl _), Nat.sub_self,
      List.drop_zero, htake2, hmerge R2]
  · -- the span ran to end of document: empty suffix
    have hfs2 : findSub nextHdr (R1.drop marker.length ++ suf) = none := by
      rw [hsufe, List.append_nil]
      exact findSub_eq_none_iff.mpr hR1noHdr
    rw [mergeReport_found hfind2, hdrop2, hfs2, List.drop_of_length_le (le_refl _), htake2,
      hmerge R2, hsufe]

attribute [ext] Doc

theorem update_metadata_overwrite (m : MetaMap) (M : Metrics) (t1 t2 : Str) :
    update_daily_note_metadata (update_daily_note_metadata m M t1) M t2 =
      update_daily_note_metadata m M t2 := by
  funext k
  unfold update_daily_note_metadata setKey
  split_ifs <;> rfl

/-- Claim C1.  For every document whose body contains exactly one daily report
section (exactly one occurrence of the `"\n## 📊 Rize Metrics"` marker),
running the render-and-merge step of `update_daily_note` twice in
succession with identical input metrics and projects produces the same
final document as running it once: instantiating the single run at the
second run's generation times (`t2c` for the report-header clock, `t2s`
for `rize_last_sync`) makes the two results literally equal, so the
double-run and single-run documents differ at most in those
generation-time fields.  The clock string and the displayed names carry no
newline (the clock is `%H:%M`; names are single-line fields). -/
theorem update_daily_note_idem (doc : Doc) (metrics : Metrics) (projects : List Project)
    (t1c t1s t2c t2s : Str)
    (hdoc : countOcc marker doc.content = 1)
    (hclk : '\n' ∉ t1c)
    (hcats : ∀ c ∈ metrics.categories, '\n' ∉ c.effName)
    (hprojs : ∀ p ∈ projects, '\n' ∉ p.effName) :
    update_daily_note t2c t2s metrics projects
        (update_daily_note t1c t1s metrics projects doc) =
      update_daily_note t2c t2s metrics projects doc := by
  obtain ⟨i, hocc, huniq⟩ := (countOcc_eq_one_iff marker_ne_nil).mp hdoc
  simp only [update_daily_note]
  congr 1
  · exact update_metadata_overwrite doc.meta metrics t1s t2s
  · exact mergeReport_idem hocc huniq (render_marker_pref t1c _ _)
      (render_no_hdr t1c metrics.categories projects hclk hcats hprojs)

theorem countOcc_eq_one_of_unique {pat s : Str} (hp : pat ≠ []) {i : Nat}
    (hocc : pat <+: s.drop i) (huniq : ∀ k, pat <+: s.drop k → k = i) :
    countOcc pat s = 1 := (countOcc_eq_one_iff hp).mpr ⟨i, hocc, huniq⟩

/-- Unfolding of `mergeReport` in the not-found case. -/
theorem mergeReport_none {new content : Str} (hfind : findSub marker content = none) :
    mergeReport new content = content ++ "\n".toList ++ new :=
  mergeSection_none hfind

/-- Replacing the unique existing section with a report that carries the
pattern exactly once (at its head) leaves exactly one section.  The
pattern's characters after its leading newline are not newlines, as holds
for both section markers. -/
theorem mergeSection_count_replace {pat content R : Str} {i : Nat}
    (hpne : pat ≠ [])
    (hp0 : pat[0]? = some '\n')
    (hptail : ∀ t, t < pat.length → 1 ≤ t → pat[t]? ≠ some '\n')
    (hocc : pat <+: content.drop i)
    (huniq : ∀ k, pat <+: content.drop k → k = i)
    (hRpref : pat <+: R)
    (hRuniq : ∀ k, pat <+: R.drop k → k = 0) :
    countOcc pat (mergeSection pat R content) = 1 := by
  have hplen0 : 0 < pat.length := List.length_pos.mpr hpne
  obtain ⟨j, hsuf, hmerge⟩ := mergeSection_replace_decomp hocc huniq
  have hilen : i < content.length := occ_bound hpne hocc
  have hpre : (content.take i).length = i := by rw [List.length_take]; omega
  have hRne : R ≠ [] := fun hc => hpne (List.prefix_nil.mp (hc ▸ hRpref))
  rw [hmerge R, List.append_assoc]
  set pre := content.take i
  set suf := (content.drop (i + pat.length)).drop j with hsuf_def
  have hR0 : (R ++ suf)[0]? = some '\n' := by
    rw [List.getElem?_append_left (by
      cases R with
      | nil => exact absurd rfl hRne
      | cons c cs => simp)]
    rw [getElem?_of_pref hRpref hplen0, hp0]
  apply countOcc_eq_one_of_unique hpne (i := i)
  · rw [drop_append_right (by omega : pre.length ≤ i), hpre, Nat.sub_self, List.drop_zero]
    exact pref_mono _ hRpref
  · intro k hk
    rcases Nat.lt_or_ge k i with hki | hki
    · exfalso
      have ha : ∀ k', ¬ pat <+: pre.drop k' := by
        intro k' hk'
        have hlen := hk'.length_le
        rw [List.length_drop, hpre] at hlen
        have h2 := huniq k' (occ_of_take hk')
        omega
      have hb : ∀ t, 1 ≤ t → t < pat.length → (R ++ suf)[0]? ≠ pat[t]? := by
        intro t h1t htm hc
        rw [hR0] at hc
        exact hptail t htm h1t hc.symm
      exact no_left_occ ha hb k (by omega) hk
    · rw [drop_append_right (by omega : pre.length ≤ k), hpre] at hk
      rcases Nat.lt_or_ge (k - i) R.length with hqR | hqR
      · by_cases hfit : pat.length ≤ R.length - (k - i)
        · have hqsplit : (R ++ suf).drop (k - i) = R.drop (k - i) ++ suf := by
            rw [List.drop_append_eq_append_drop, Nat.sub_eq_zero_of_le (le_of_lt hqR),
              List.drop_zero]
          rw [hqsplit] at hk
          have := hRuniq (k - i) (pref_of_append_left hk (by rw [List.length_drop]; omega))
          omega
        · exfalso
          have hchar := junction_char hk hqR (by omega)
          rcases hsuf with hs | hs
          · have h1 : suf[0]? = some '\n' := by
              rw [getElem?_of_pref hs (by decide)]
              decide
            rw [h1] at hchar
            exact hptail (R.length - (k - i)) (by omega) (by omega) hchar.symm
          · have h2 : pat[R.length - (k - i)]? = none := by
              rw [← hchar, hs]
              rfl
            rw [List.getElem?_eq_none_iff] at h2
            omega
      · exfalso
        rw [drop_append_right hqR, hsuf_def, List.drop_drop, List.drop_drop] at hk
        have h2 := huniq _ hk
        omega

/-- Daily instance of `mergeSection_count_replace`. -/
theorem merge_count_replace {content R : Str} {i : Nat}
    (hocc : marker <+: content.drop i)
    (huniq : ∀ k, marker <+: content.drop k → k = i)
    (hRpref : marker <+: R)
    (hRuniq : ∀ k, marker <+: R.drop k → k = 0) :
    countOcc marker (mergeReport R content) = 1 :=
  mergeSection_count_replace marker_ne_nil marker_head marker_tail_no_nl
    hocc huniq hRpref hRuniq

/-- Appending a report with a unique leading pattern occurrence to a
document that has none gives exactly one section. -/
theorem mergeSection_count_append {pat content R : Str}
    (hplen : 2 ≤ pat.length)
    (hp0 : pat[0]? = some '\n')
    (hptail : ∀ t, t < pat.length → 1 ≤ t → pat[t]? ≠ some '\n')
    (hnone : ∀ k, ¬ pat <+: content.drop k)
    (hRpref : pat <+: R)
    (hRuniq : ∀ k, pat <+: R.drop k → k = 0) :
    countOcc pat (mergeSection pat R content) = 1 := by
  have hpne : pat ≠ [] := by
    intro hc
    rw [hc] at hplen
    simp at hplen
  have hfind : findSub pat content = none := findSub_eq_none_iff.mpr hnone
  rw [mergeSection_none hfind,
    show content ++ "\n".toList ++ R = content ++ ('\n' :: R) by simp]
  apply countOcc_eq_one_of_unique hpne (i := content.length + 1)
  · rw [drop_append_right (by omega),
      show content.length + 1 - content.length = 1 by omega, List.drop_succ_cons,
      List.drop_zero]
    exact hRpref
  · intro k hk
    rcases Nat.lt_or_ge k content.length with hkc | hkc
    · exfalso
      have hb : ∀ t, 1 ≤ t → t < pat.length → ('\n' :: R)[0]? ≠ pat[t]? := by
        intro t h1t htm hc
        rw [show (('\n' : Char) :: R)[0]? = some '\n' from by simp] at hc
        exact hptail t htm h1t hc.symm
      exact no_left_occ hnone hb k hkc hk
    · rw [drop_append_right hkc] at hk
      rcases Nat.eq_or_lt_of_le hkc with hke | hkl
      · exfalso
        have hd : k - content.length = 0 := by omega
        rw [hd, List.drop_zero] at hk
        obtain ⟨pt, rfl⟩ : ∃ pt, pat = '\n' :: pt := by
          cases pat with
          | nil => exact absurd rfl hpne
          | cons c cs =>
            have : c = '\n' := by simpa using hp0
            exact ⟨cs, by rw [this]⟩
        have hptne : pt ≠ [] := by
          intro hc
          rw [hc] at hplen
          simp at hplen
        have h2 := (List.cons_prefix_cons.mp hk).2
        have h3 := head?_of_pref h2 hptne
        have h4 := head?_of_pref hRpref hpne
        rw [h4, show (('\n' : Char) :: pt).head? = some '\n' from rfl,
          List.head?_eq_getElem?] at h3
        have h5 : pt[0]? = some '\n' := h3.symm
        have h6 : (('\n' : Char) :: pt)[1]? = some '\n' := by simpa using h5
        exact hptail 1 (by simpa using hplen) (le_refl 1) h6
      · obtain ⟨x, hx⟩ : ∃ x, k - content.length = x + 1 := ⟨k - content.length - 1, by omega⟩
        rw [hx, List.drop_succ_cons] at hk
        have := hRuniq x hk
        omega

/-- Daily instance of `mergeSection_count_append`. -/
theorem merge_count_append {content R : Str}
    (hnone : ∀ k, ¬ marker <+: content.drop k)
    (hRpref : marker <+: R)
    (hRuniq : ∀ k, marker <+: R.drop k → k = 0) :
    countOcc marker (mergeReport R content) = 1 :=
  mergeSection_count_append (by decide) marker_head marker_tail_no_nl
    hnone hRpref hRuniq

theorem weeklyMarker_ne_nil : weeklyMarker ≠ [] := by decide

theorem weeklyMarker_head : weeklyMarker[0]? = some '\n' := by decide

/-- Every character of `weeklyMarker` after position 0 differs from `'\n'`. -/
theorem weeklyMarker_tail_no_nl :
    ∀ t, t < weeklyMarker.length → 1 ≤ t → weeklyMarker[t]? ≠ some '\n' := by decide

theorem nextHdr_pref_weeklyMarker : nextHdr <+: weeklyMarker := by decide

theorem weeklyMarker_len_pos : 0 < weeklyMarker.length := by decide

/-- A weekly table record: `update_weekly_review` builds
`[{"name": k, "trackedTime": v} for k, v in ...items()]` (lines 334-335)
and reads the name back with `c['name']`, so the name is always present. -/
structure NamedTally where
  name : Str
  trackedTime : Nat
  deriving DecidableEq

/-- Weekly table row `f"| {c['name']} | {time_str} |"` (lines 349, 358);
the local `format_time` of `update_weekly_review` (lines 314-317) is
textually identical to the global one. -/
def weekRow (c : NamedTally) : Str :=
  "| ".toList ++ c.name ++ " | ".toList ++ format_time c.trackedTime ++ " |".toList

/-- The weekly category table lines (lines 343-350). -/
def weekCatBlockLines (sorted : List NamedTally) : List Str :=
  if sorted = [] then []
  else "### Top Categories (Week)".toList :: "| Category | Time |".toList ::
    "| :--- | :--- |".toList :: ((sorted.take 10).map weekRow ++ ["\n".toList])

/-- The weekly project table lines (lines 352-359). -/
def weekProjBlockLines (sorted : List NamedTally) : List Str :=
  if sorted = [] then []
  else "### Top Projects (Week)".toList :: "| Project | Time |".toList ::
    "| :--- | :--- |".toList :: ((sorted.take 10).map weekRow ++ ["\n".toList])

/-- The weekly header line
`f"\n## 📊 Rize Weekly Metrics ({start_date} to {end_date})\n"` (line 341);
`s` and `e` are the rendered start/end dates. -/
def weeklyHeaderLine (s e : Str) : Str :=
  "\n## 📊 Rize Weekly Metrics (".toList ++ s ++ " to ".toList ++ e ++ ")\n".toList

def weeklyReportLines (s e : Str) (cats projs : List NamedTally) : List Str :=
  weeklyHeaderLine s e ::
    (weekCatBlockLines (sortDesc NamedTally.trackedTime cats) ++
     weekProjBlockLines (sortDesc NamedTally.trackedTime projs))

/-- The weekly `new_report = "\n".join(report_lines)` (line 361). -/
def renderWeeklyReport (s e : Str) (cats projs : List NamedTally) : Str :=
  joinLines (weeklyReportLines s e cats projs)

/-- The part of the weekly header line after the weekly marker. -/
def weeklyTailZero (s e : Str) : Str :=
  " (".toList ++ s ++ " to ".toList ++ e ++ ")\n".toList

theorem weeklyHeaderLine_eq (s e : Str) :
    weeklyHeaderLine s e = weeklyMarker ++ weeklyTailZero s e := by
  unfold weeklyHeaderLine weeklyTailZero weeklyMarker
  rw [show "\n## 📊 Rize Weekly Metrics (".toList =
    "\n## 📊 Rize Weekly Metrics".toList ++ " (".toList from by decide]
  simp [List.append_assoc]

theorem renderWeeklyReport_shape (s e : Str) (cats projs : List NamedTally) :
    renderWeeklyReport s e cats projs =
      weeklyMarker ++ joinLines (weeklyTailZero s e ::
        (weekCatBlockLines (sortDesc NamedTally.trackedTime cats) ++
         weekProjBlockLines (sortDesc NamedTally.trackedTime projs))) := by
  unfold renderWeeklyReport weeklyReportLines
  cases hb : weekCatBlockLines (sortDesc NamedTally.trackedTime cats) ++
      weekProjBlockLines (sortDesc NamedTally.trackedTime projs) with
  | nil =>
    rw [show joinLines [weeklyHeaderLine s e] = weeklyHeaderLine s e from rfl,
      show joinLines [weeklyTailZero s e] = weeklyTailZero s e from rfl,
      weeklyHeaderLine_eq]
  | cons x xs =>
    rw [joinLines_cons_cons, joinLines_cons_cons, weeklyHeaderLine_eq, List.append_assoc]

theorem weekRow_shape (c : NamedTally) :
    weekRow c = '|' :: ' ' ::
      (c.name ++ (" | ".toList ++ (format_time c.trackedTime ++ " |".toList))) := by
  unfold weekRow
  simp [List.append_assoc]

theorem lineOkay_weekRow (c : NamedTally) (h : '\n' ∉ c.name) : LineOkay (weekRow c) := by
  apply lineOkay_of_no_nl
  · rw [weekRow_shape, show "## ".toList = '#' :: "# ".toList from rfl]
    intro hc
    exact absurd (List.cons_prefix_cons.mp hc).1 (by decide)
  · rw [weekRow_shape]
    intro hc
    simp only [List.mem_cons, List.mem_append] at hc
    rcases hc with h1 | h1 | h1 | h1 | h1 | h1
    · exact absurd h1 (by decide)
    · exact absurd h1 (by decide)
    · exact h h1
    · exact absurd h1 (by decide)
    · exact format_time_no_nl _ h1
    · exact absurd h1 (by decide)

theorem lineOkay_weeklyTailZero (s e : Str) (hs : '\n' ∉ s) (he : '\n' ∉ e) :
    LineOkay (weeklyTailZero s e) := by
  constructor
  · rw [show weeklyTailZero s e =
      ' ' :: '(' :: (s ++ (" to ".toList ++ (e ++ ")\n".toList))) from by
        unfold weeklyTailZero; simp,
      show "## ".toList = '#' :: "# ".toList from rfl]
    intro hc
    exact absurd (List.cons_prefix_cons.mp hc).1 (by decide)
  · unfold weeklyTailZero
    rw [show " (".toList ++ s ++ " to ".toList ++ e ++ ")\n".toList =
      (" (".toList ++ s ++ " to ".toList ++ e ++ [')']) ++ ['\n'] from by
        simp [List.append_assoc],
      List.dropLast_concat]
    intro hc
    simp only [List.mem_append] at hc
    rcases hc with (((h1 | h1) | h1) | h1) | h1
    · exact absurd h1 (by decide)
    · exact hs h1
    · exact absurd h1 (by decide)
    · exact he h1
    · exact absurd h1 (by decide)

theorem lineOkay_weekCatBlock {l : Str} {cs : List NamedTally}
    (hnames : ∀ c ∈ cs, '\n' ∉ c.name) (hl : l ∈ weekCatBlockLines cs) : LineOkay l := by
  unfold weekCatBlockLines at hl
  split at hl
  · simp at hl
  · simp only [List.mem_cons, List.mem_append, List.mem_map, List.mem_singleton] at hl
    rcases hl with rfl | rfl | rfl | ⟨c, hc, rfl⟩ | rfl | hl0
    · decide
    · decide
    · decide
    · exact lineOkay_weekRow c (hnames c (List.mem_of_mem_take hc))
    · decide
    · exact absurd hl0 (List.not_mem_nil l)

theorem lineOkay_weekProjBlock {l : Str} {ps : List NamedTally}
    (hnames : ∀ p ∈ ps, '\n' ∉ p.name) (hl : l ∈ weekProjBlockLines ps) : LineOkay l := by
  unfold weekProjBlockLines at hl
  split at hl
  · simp at hl
  · simp only [List.mem_cons, List.mem_append, List.mem_map, List.mem_singleton] at hl
    rcases hl with rfl | rfl | rfl | ⟨p, hp, rfl⟩ | rfl | hl0
    · decide
    · decide
    · decide
    · exact lineOkay_weekRow p (hnames p (List.mem_of_mem_take hp))
    · decide
    · exact absurd hl0 (List.not_mem_nil l)

/-- The header pattern `"\n## "` does not occur in the rendered weekly
report after its leading marker. -/
theorem renderWeekly_no_hdr (s e : Str) (cats projs : List NamedTally)
    (hs : '\n' ∉ s) (he : '\n' ∉ e)
    (hcats : ∀ c ∈ cats, '\n' ∉ c.name)
    (hprojs : ∀ p ∈ projs, '\n' ∉ p.name) :
    ∀ k, ¬ nextHdr <+: ((renderWeeklyReport s e cats projs).drop weeklyMarker.length).drop k := by
  rw [renderWeeklyReport_shape, List.drop_left]
  apply no_hdr_joinLines
  intro l hl
  rcases List.mem_cons.mp hl with rfl | hl
  · exact lineOkay_weeklyTailZero s e hs he
  · rcases List.mem_append.mp hl with hl | hl
    · refine lineOkay_weekCatBlock (fun c hc => ?_) hl
      exact hcats c ((sortDesc_perm _ _).mem_iff.mp hc)
    · refine lineOkay_weekProjBlock (fun p hp => ?_) hl
      exact hprojs p ((sortDesc_perm _ _).mem_iff.mp hp)

theorem renderWeekly_marker_pref (s e : Str) (cats projs : List NamedTally) :
    weeklyMarker <+: renderWeeklyReport s e cats projs := by
  rw [renderWeeklyReport_shape]
  exact List.prefix_append _ _

/-- The weekly marker occurs in the rendered weekly report only at
position 0. -/
theorem renderWeekly_marker_unique (s e : Str) (cats projs : List NamedTally)
    (hs : '\n' ∉ s) (he : '\n' ∉ e)
    (hcats : ∀ c ∈ cats, '\n' ∉ c.name)
    (hprojs : ∀ p ∈ projs, '\n' ∉ p.name) :
    ∀ k, weeklyMarker <+: (renderWeeklyReport s e cats projs).drop k → k = 0 := by
  intro k hk
  by_contra hk0
  have hk1 : 1 ≤ k := by omega
  by_cases hkm : k < weeklyMarker.length
  · have hRk : (renderWeeklyReport s e cats projs)[k]? = some '\n' := by
      have := getElem?_of_pref hk weeklyMarker_len_pos
      rw [List.getElem?_drop, Nat.add_zero, weeklyMarker_head] at this
      exact this
    have hRk2 : (renderWeeklyReport s e cats projs)[k]? = weeklyMarker[k]? :=
      getElem?_of_pref (renderWeekly_marker_pref s e cats projs) hkm
    exact weeklyMarker_tail_no_nl k hkm hk1 (hRk2 ▸ hRk)
  · have h2 : nextHdr <+: (renderWeeklyReport s e cats projs).drop k :=
      nextHdr_pref_weeklyMarker.trans hk
    have h3 : ((renderWeeklyReport s e cats projs).drop weeklyMarker.length).drop
        (k - weeklyMarker.length) = (renderWeeklyReport s e cats projs).drop k := by
      rw [List.drop_drop]
      congr 1
      omega
    exact renderWeekly_no_hdr s e cats projs hs he hcats hprojs
      (k - weeklyMarker.length) (h3 ▸ h2)

/-- Number of report blocks headed by the bare daily marker: lines that
start with `"## 📊 Rize Metrics"`, i.e. occurrences at the very start of
the text or right after a newline.  (The weekly marker is not an
occurrence: the two literals differ at the word after `Rize`.) -/
def countSections (s : Str) : Nat :=
  (if "## 📊 Rize Metrics".toList <+: s then 1 else 0) + countOcc marker s

/-- Claim C3, counterexample.  A body that begins with a bare
`"## 📊 Rize Metrics"` header (no preceding newline — reachable, since
loaded bodies are stripped of surrounding whitespace) already contains one
block headed by the daily marker, yet the merge appends a second copy: the
result contains two lines starting with `"## 📊 Rize Metrics"`.  The
claimed invariant "the result contains exactly one such block, never a
second appended copy" is therefore false on the code. -/
theorem merge_duplicates_initial_section :
    countSections "## 📊 Rize Metrics (08:00)\nold".toList = 1 ∧
    countSections
      (mergeReport
        (renderReport "09:30".toList [⟨some ⟨some "Coding".toList⟩, 7200⟩] [])
        "## 📊 Rize Metrics (08:00)\nold".toList) = 2 := by
  constructor
  · decide
  · set_option maxRecDepth 8192 in decide

/-- Claim C3, amended.  The merge preserves the at-most-one-section
invariant for sections in the only form the code's pattern recognizes: a
marker preceded by a newline.  If the body contains at most one occurrence
of `"\n## 📊 Rize Metrics"` (resp. `"\n## 📊 Rize Weekly Metrics"` for the
weekly merge of `update_weekly_review`), the merged result contains
exactly one — an existing section is replaced in place, never duplicated,
and a missing one is appended exactly once.  A report block sitting at the
very start of the body is not recognized and is instead duplicated (see
the counterexample).  Clock, date-range strings and displayed names are
newline-free, as they are in every run. -/
theorem merge_preserves_unique_section (content contentW now ws we : Str)
    (metrics : Metrics) (projects : List Project) (wcats wprojs : List NamedTally)
    (hdoc : countOcc marker content ≤ 1)
    (hdocW : countOcc weeklyMarker contentW ≤ 1)
    (hclk : '\n' ∉ now) (hws : '\n' ∉ ws) (hwe : '\n' ∉ we)
    (hcats : ∀ c ∈ metrics.categories, '\n' ∉ c.effName)
    (hprojs : ∀ p ∈ projects, '\n' ∉ p.effName)
    (hwcats : ∀ c ∈ wcats, '\n' ∉ c.name)
    (hwprojs : ∀ p ∈ wprojs, '\n' ∉ p.name) :
    countOcc marker
      (mergeReport (renderReport now metrics.categories projects) content) = 1 ∧
    countOcc weeklyMarker
      (mergeWeeklyReport (renderWeeklyReport ws we wcats wprojs) contentW) = 1 := by
  constructor
  · have hRpref := render_marker_pref now metrics.categories projects
    have hRuniq := render_marker_unique now metrics.categories projects hclk hcats hprojs
    cases hfs : findSub marker content with
    | none => exact merge_count_append (findSub_eq_none_iff.mp hfs) hRpref hRuniq
    | some i =>
      obtain ⟨hocc, -⟩ := findSub_eq_some_iff.mp hfs
      exact merge_count_replace hocc
        (fun k hk => countOcc_le_one_unique hdoc marker_ne_nil hk hocc) hRpref hRuniq
  · have hRpref := renderWeekly_marker_pref ws we wcats wprojs
    have hRuniq := renderWeekly_marker_unique ws we wcats wprojs hws hwe hwcats hwprojs
    cases hfs : findSub weeklyMarker contentW with
    | none =>
      exact mergeSection_count_append (by decide) weeklyMarker_head
        weeklyMarker_tail_no_nl (findSub_eq_none_iff.mp hfs) hRpref hRuniq
    | some i =>
      obtain ⟨hocc, -⟩ := findSub_eq_some_iff.mp hfs
      exact mergeSection_count_replace weeklyMarker_ne_nil weeklyMarker_head
        weeklyMarker_tail_no_nl hocc
        (fun k hk => countOcc_le_one_unique hdocW weeklyMarker_ne_nil hk hocc)
        hRpref hRuniq

/-- Witness for the amended C3 at concrete daily and weekly documents,
each with one existing newline-prefixed section. -/
theorem merge_preserves_unique_section_witness :
    countOcc marker
      (mergeReport
        (renderReport "09:30".toList
          [⟨some ⟨some "Coding".toList⟩, 7200⟩]
          [⟨some "Project A".toList, 3600⟩])
        "# Daily Log\n\n## 📊 Rize Metrics (08:00)\nold\n## Other Notes\nkeep".toList) = 1 ∧
    countOcc weeklyMarker
      (mergeWeeklyReport
        (renderWeeklyReport "2024-01-01".toList "2024-01-07".toList
          [⟨"Coding".toList, 7200⟩] [⟨"Project A".toList, 3600⟩])
        "# Weekly Review\n\n## 📊 Rize Weekly Metrics (old)\nstale".toList) = 1 :=
  merge_preserves_unique_section _ _ _ _ _
    ⟨some 18000, some 3600, some 0, some 600, some 18000,
      [⟨some ⟨some "Coding".toList⟩, 7200⟩]⟩
    _ _ _ (by decide) (by decide) (by decide) (by decide) (by decide) (by decide)
    (by decide) (by decide) (by decide)

/-- Says `s` is `a`, then exactly one blank line, then `b`. -/
def blankLineSeparated (a b s : Str) : Prop :=
  s = a ++ '\n' :: '\n' :: b ∧ a.getLast? ≠ some '\n' ∧ b.head? ≠ some '\n'

/-- Claim C4.  For a document body with no existing report section (no
occurrence of the marker) the merge appends the new report at the end,
separated from the existing content by exactly one blank line: the result
is the body, two newlines, then the report's visible text, which starts
with `"## "`.  (A loaded body never ends in a newline — `frontmatter`
strips surrounding whitespace — which the second hypothesis records.) -/
theorem merge_appends_when_absent (content now : Str) (metrics : Metrics)
    (projects : List Project)
    (habs : ∀ k, ¬ marker <+: content.drop k)
    (hlast : content.getLast? ≠ some '\n') :
    blankLineSeparated content
      ((renderReport now metrics.categories projects).drop 1)
      (mergeReport (renderReport now metrics.categories projects) content) ∧
    "## ".toList <+: (renderReport now metrics.categories projects).drop 1 := by
  have hfind : findSub marker content = none := findSub_eq_none_iff.mpr habs
  have hshape := renderReport_shape now metrics.categories projects
  obtain ⟨J, hJ, hJpre⟩ : ∃ J, renderReport now metrics.categories projects = '\n' :: J ∧
      "## ".toList <+: J := by
    rw [hshape]
    exact ⟨"## 📊 Rize Metrics".toList ++ joinLines _, rfl,
      pref_mono _ (by decide)⟩
  have hdrop1 : (renderReport now metrics.categories projects).drop 1 = J := by
    rw [hJ]
    rfl
  refine ⟨⟨?_, hlast, ?_⟩, by rw [hdrop1]; exact hJpre⟩
  · rw [mergeReport_none hfind, hJ]
    simp
  · rw [hdrop1]
    have hJne : J ≠ [] := by
      intro hc
      rw [hc, List.prefix_nil] at hJpre
      exact absurd hJpre (by decide)
    rw [head?_of_pref hJpre (by decide)]
    decide

/-- Witness for C4: appending to a fresh daily note. -/
theorem merge_appends_when_absent_witness :
    blankLineSeparated "# Daily Log: 2024-01-01".toList
      ((renderReport "09:30".toList
          [⟨some ⟨some "Coding".toList⟩, 7200⟩] []).drop 1)
      (mergeReport (renderReport "09:30".toList
          [⟨some ⟨some "Coding".toList⟩, 7200⟩] [])
        "# Daily Log: 2024-01-01".toList) ∧
    "## ".toList <+: (renderReport "09:30".toList
        [⟨some ⟨some "Coding".toList⟩, 7200⟩] []).drop 1 :=
  merge_appends_when_absent _ _
    ⟨some 18000, some 3600, some 0, some 600, some 18000,
      [⟨some ⟨some "Coding".toList⟩, 7200⟩]⟩
    [] (noOcc_of_bounded (by decide) (by decide)) (by decide)

/-- Claim C2, counterexample.  A body consisting of a report block whose
`"## 📊 Rize Metrics"` header sits at position 0 — reachable, since loaded
bodies are stripped of surrounding whitespace — contains a span starting
at the marker and running to end of document, so the claim requires the
merge to replace that span with the freshly rendered report, leaving
nothing else.  The code's pattern demands a newline before the header, so
it finds nothing and instead appends: the old span survives unchanged and
the result is not the rendered report. -/
theorem merge_misses_initial_block :
    "## 📊 Rize Metrics".toList <+: "## 📊 Rize Metrics (08:00)\nold".toList ∧
    mergeReport
        (renderReport "09:30".toList [⟨some ⟨some "Coding".toList⟩, 7200⟩] [])
        "## 📊 Rize Metrics (08:00)\nold".toList =
      "## 📊 Rize Metrics (08:00)\nold".toList ++ "\n".toList ++
        renderReport "09:30".toList [⟨some ⟨some "Coding".toList⟩, 7200⟩] [] ∧
    mergeReport
        (renderReport "09:30".toList [⟨some ⟨some "Coding".toList⟩, 7200⟩] [])
        "## 📊 Rize Metrics (08:00)\nold".toList ≠
      renderReport "09:30".toList [⟨some ⟨some "Coding".toList⟩, 7200⟩] [] := by
  refine ⟨by decide, ?_, ?_⟩
  · set_option maxRecDepth 8192 in decide
  · set_option maxRecDepth 8192 in decide

/-- Claim C2, amended.  For every document body containing an existing
daily report block in the form the code's pattern recognizes — a span
whose `"## 📊 Rize Metrics"` marker is preceded by a newline (`pre ++
marker ++ mid ++ "\n## " ++ rest`, with the marker's first occurrence
opening the span and the `"\n## "` after `mid` the first such header after
it) — the merge replaces exactly the span `marker ++ mid`: every character
of `pre` and every character from the `"\n## "` header onward is
unchanged.  When the span instead runs to end of document (`pre ++ marker
++ mid` with no `"\n## "` in `mid`), everything before the marker is
likewise unchanged and the span is replaced to the end.  A block whose
header sits at the very start of the body is not matched (see the
counterexample). -/
theorem merge_replaces_exact_span (pre mid rest new : Str) :
    ((∀ k, k < pre.length →
        ¬ marker <+: (pre ++ marker ++ mid ++ nextHdr ++ rest).drop k) →
     (∀ k, k < mid.length → ¬ nextHdr <+: (mid ++ nextHdr ++ rest).drop k) →
     mergeReport new (pre ++ marker ++ mid ++ nextHdr ++ rest) =
       pre ++ new ++ (nextHdr ++ rest)) ∧
    ((∀ k, k < pre.length → ¬ marker <+: (pre ++ marker ++ mid).drop k) →
     (∀ k, ¬ nextHdr <+: mid.drop k) →
     mergeReport new (pre ++ marker ++ mid) = pre ++ new) := by
  constructor
  · intro h1 h2
    have hc1 : pre ++ marker ++ mid ++ nextHdr ++ rest =
        pre ++ (marker ++ (mid ++ (nextHdr ++ rest))) := by
      simp [List.append_assoc]
    have hfind : findSub marker (pre ++ marker ++ mid ++ nextHdr ++ rest) =
        some pre.length := by
      apply findSub_eq_some_iff.mpr
      refine ⟨?_, h1⟩
      rw [hc1, drop_append_right (le_refl _), Nat.sub_self, List.drop_zero]
      exact List.prefix_append _ _
    rw [mergeReport_found hfind]
    have hrest : (pre ++ marker ++ mid ++ nextHdr ++ rest).drop
        (pre.length + marker.length) = mid ++ (nextHdr ++ rest) := by
      rw [hc1, drop_append_right (by omega),
        show pre.length + marker.length - pre.length = marker.length by omega,
        List.drop_left]
    rw [hrest]
    have hfs : findSub nextHdr (mid ++ (nextHdr ++ rest)) = some mid.length := by
      apply findSub_eq_some_iff.mpr
      constructor
      · rw [drop_append_right (le_refl _), Nat.sub_self, List.drop_zero]
        exact List.prefix_append _ _
      · intro k hk
        rw [← List.append_assoc]
        exact h2 k hk
    rw [hfs, drop_append_right (le_refl _), Nat.sub_self, List.drop_zero]
    rw [hc1, List.take_left' rfl]
  · intro h1 h2
    have hc1 : pre ++ marker ++ mid = pre ++ (marker ++ mid) := by
      simp [List.append_assoc]
    have hfind : findSub marker (pre ++ marker ++ mid) = some pre.length := by
      apply findSub_eq_some_iff.mpr
      refine ⟨?_, h1⟩
      rw [hc1, drop_append_right (le_refl _), Nat.sub_self, List.drop_zero]
      exact List.prefix_append _ _
    rw [mergeReport_found hfind]
    have hrest : (pre ++ marker ++ mid).drop (pre.length + marker.length) = mid := by
      rw [hc1, drop_append_right (by omega),
        show pre.length + marker.length - pre.length = marker.length by omega,
        List.drop_left]
    rw [hrest, findSub_eq_none_iff.mpr h2, List.drop_of_length_le (le_refl _),
      hc1, List.take_left' rfl, List.append_nil]

/-- Witness for C2: both branches at concrete documents. -/
theorem merge_replaces_exact_span_witness :
    mergeReport "NEW".toList
        ("# Daily Log".toList ++ marker ++ " (08:00)\nbody".toList ++ nextHdr ++
          "Other Notes\ntext".toList) =
      "# Daily Log".toList ++ "NEW".toList ++ (nextHdr ++ "Other Notes\ntext".toList) ∧
    mergeReport "NEW".toList ("# Daily Log".toList ++ marker ++ " (08:00)\nbody".toList) =
      "# Daily Log".toList ++ "NEW".toList :=
  ⟨(merge_replaces_exact_span _ _ _ _).1 (by decide) (by decide),
   (merge_replaces_exact_span "# Daily Log".toList " (08:00)\nbody".toList []
       "NEW".toList).2 (by decide)
     (noOcc_of_bounded (by decide) (by decide))⟩

/-- Witness for C1 at a concrete document, metrics and projects. -/
theorem update_daily_note_idem_witness :
    update_daily_note "09:30".toList "2024-01-01T09:30:00".toList
        ⟨some 18000, some 3600, some 0, some 600, some 18000,
          [⟨some ⟨some "Coding".toList⟩, 7200⟩]⟩
        [⟨some "Project A".toList, 3600⟩]
        (update_daily_note "08:30".toList "2024-01-01T08:30:00".toList
          ⟨some 18000, some 3600, some 0, some 600, some 18000,
            [⟨some ⟨some "Coding".toList⟩, 7200⟩]⟩
          [⟨some "Project A".toList, 3600⟩]
          ⟨fun _ => none,
            "# Daily Log\n\n## 📊 Rize Metrics (08:00)\nold\n## Other Notes\nkeep".toList⟩) =
      update_daily_note "09:30".toList "2024-01-01T09:30:00".toList
        ⟨some 18000, some 3600, some 0, some 600, some 18000,
          [⟨some ⟨some "Coding".toList⟩, 7200⟩]⟩
        [⟨some "Project A".toList, 3600⟩]
        ⟨fun _ => none,
          "# Daily Log\n\n## 📊 Rize Metrics (08:00)\nold\n## Other Notes\nkeep".toList⟩ :=
  update_daily_note_idem _ _ _ _ _ _ _ (by decide) (by decide) (by decide) (by decide)

/-- Claim C5, counterexample.  With no vault path resolvable (neither config
nor environment) and metrics available, a two-date batch still processes
the second date: `update_daily_note` merely reports and returns for each
date, so the claim that "no further work is attempted, no remaining target
dates are processed" is false on the code. -/
theorem missing_vault_not_fatal :
    resolveVaultPath ⟨none⟩ ⟨none⟩ = none ∧
    runDaily (fun _ => some ⟨some 18000, some 3600, some 0, some 600, some 18000, []⟩)
        ⟨none⟩ ⟨none⟩ [0, 1] =
      [(0, .noVault), (1, .noVault)] :=
  ⟨rfl, rfl⟩

/-- Claim C5, amended.  When no vault path is resolvable, each date's update
reports the failure and writes nothing for that date, but the batch is
never terminated early: every target date is still visited (in order), and
every outcome is a caught per-date failure. -/
theorem missing_vault_per_date (fetchM : Int → Option Metrics) (c : Config) (e : EnvVars)
    (dates : List Int)
    (h : resolveVaultPath c e = none) :
    (runDaily fetchM c e dates).map Prod.fst = dates ∧
    ∀ p ∈ runDaily fetchM c e dates, p.2 = .noVault ∨ p.2 = .noMetrics := by
  constructor
  · rw [runDaily, List.map_map]
    exact List.map_id _
  · intro p hp
    simp only [runDaily, List.mem_map] at hp
    obtain ⟨d, hd, rfl⟩ := hp
    cases hf : fetchM d <;> simp [processDate, hf, h]

/-- Witness for the amended C5. -/
theorem missing_vault_per_date_witness :
    (runDaily (fun _ => some ⟨some 18000, some 3600, some 0, some 600, some 18000, []⟩)
        ⟨none⟩ ⟨none⟩ [0, 1]).map Prod.fst = [0, 1] ∧
    ∀ p ∈ runDaily (fun _ => some ⟨some 18000, some 3600, some 0, some 600, some 18000, []⟩)
        ⟨none⟩ ⟨none⟩ [0, 1], p.2 = .noVault ∨ p.2 = .noMetrics :=
  missing_vault_per_date _ _ _ _ rfl

/-- Whether a time entry contributes to the tally of name `n`: its project
must be present and its effective name must equal `n` (exact, hence
case-sensitive, string equality). -/
def contributes (n : Str) (e : TimeEntry) : Bool :=
  match e.project with
  | none => false
  | some p => decide (n = p.effName)

theorem foldl_entryStep (l : List TimeEntry) (m : Str → Nat) (n : Str) :
    (l.foldl entryStep m) n =
      m n + ((l.filter (contributes n)).map TimeEntry.duration).sum := by
  induction l generalizing m with
  | nil => simp
  | cons e l ih =>
    rw [List.foldl_cons, ih]
    cases hp : e.project with
    | none => simp [entryStep, hp, contributes]
    | some p =>
      by_cases hn : n = p.effName
      · have hce : contributes n e = true := by simp [contributes, hp, hn]
        rw [List.filter_cons_of_pos hce, List.map_cons, List.sum_cons]
        simp only [entryStep, hp]
        rw [if_pos hn]
        omega
      · simp [entryStep, hp, contributes, hn]

theorem foldl_catStep (l : List Category) (m : Str → Nat) (n : Str) :
    (l.foldl catStep m) n =
      m n + ((l.filter (fun c => decide (n = c.effName))).map Category.trackedTime).sum := by
  induction l generalizing m with
  | nil => simp
  | cons c l ih =>
    rw [List.foldl_cons, ih]
    by_cases hn : n = c.effName
    · rw [List.filter_cons_of_pos (by simp [hn]), List.map_cons, List.sum_cons]
      simp only [catStep]
      rw [if_pos hn]
      omega
    · simp [catStep, hn]

/-- Claim C6.  The aggregated total of each name is the exact arithmetic sum
of that name's individual contributions (names matched by exact,
case-sensitive string equality), and the result is independent of the
order in which records are folded — for the per-entry project fold of
`fetch_project_data` and the per-day category fold of the weekly
aggregation alike. -/
theorem aggregation_exact_sum (entries entries' : List TimeEntry)
    (cs cs' : List Category) (n : Str)
    (hp : entries.Perm entries') (hc : cs.Perm cs') :
    project_map entries n =
      ((entries.filter (contributes n)).map TimeEntry.duration).sum ∧
    project_map entries' n = project_map entries n ∧
    catTally cs n =
      ((cs.filter (fun c => decide (n = c.effName))).map Category.trackedTime).sum ∧
    catTally cs' n = catTally cs n := by
  have key : ∀ l : List TimeEntry, project_map l n =
      ((l.filter (contributes n)).map TimeEntry.duration).sum := by
    intro l
    unfold project_map
    rw [foldl_entryStep]
    simp
  have keyc : ∀ l : List Category, catTally l n =
      ((l.filter (fun c => decide (n = c.effName))).map Category.trackedTime).sum := by
    intro l
    unfold catTally
    rw [foldl_catStep]
    simp
  refine ⟨key entries, ?_, keyc cs, ?_⟩
  · rw [key, key]
    exact (((hp.filter (contributes n)).map TimeEntry.duration).sum_eq).symm
  · rw [keyc, keyc]
    exact (((hc.filter _).map Category.trackedTime).sum_eq).symm

/-- Witness for C6 at concrete entry lists in two different orders. -/
theorem aggregation_exact_sum_witness :
    project_map
        [⟨some ⟨some "A".toList⟩, 10⟩, ⟨some ⟨some "B".toList⟩, 5⟩,
          ⟨some ⟨some "A".toList⟩, 7⟩] "A".toList =
      (([⟨some ⟨some "A".toList⟩, 10⟩, ⟨some ⟨some "B".toList⟩, 5⟩,
          ⟨some ⟨some "A".toList⟩, 7⟩].filter
            (contributes "A".toList)).map TimeEntry.duration).sum ∧
    project_map
        [⟨some ⟨some "B".toList⟩, 5⟩, ⟨some ⟨some "A".toList⟩, 7⟩,
          ⟨some ⟨some "A".toList⟩, 10⟩] "A".toList =
      project_map
        [⟨some ⟨some "A".toList⟩, 10⟩, ⟨some ⟨some "B".toList⟩, 5⟩,
          ⟨some ⟨some "A".toList⟩, 7⟩] "A".toList ∧
    catTally [⟨some ⟨some "A".toList⟩, 3⟩] "A".toList =
      (([⟨some ⟨some "A".toList⟩, 3⟩].filter
          (fun c => decide ("A".toList = c.effName))).map Category.trackedTime).sum ∧
    catTally [⟨some ⟨some "A".toList⟩, 3⟩] "A".toList =
      catTally [⟨some ⟨some "A".toList⟩, 3⟩] "A".toList :=
  aggregation_exact_sum _ _ _ _ _ (by decide) (by decide)

theorem mem_weeklyFetchedDates {today : Int} {wd : Nat} {d : Int} :
    d ∈ weeklyFetchedDates today wd ↔
      ∃ i : Nat, i < 7 ∧ i ≤ wd ∧ d = today - (wd : Int) + i := by
  unfold weeklyFetchedDates
  simp only [List.mem_filterMap, List.mem_range]
  constructor
  · rintro ⟨i, hi, hfi⟩
    by_cases hgt : today - (wd : Int) + (i : Int) > today
    · rw [if_pos hgt] at hfi
      exact absurd hfi (by simp)
    · rw [if_neg hgt] at hfi
      obtain rfl := Option.some.inj hfi
      exact ⟨i, hi, by omega, rfl⟩
  · rintro ⟨i, hi, hle, rfl⟩
    exact ⟨i, hi, by rw [if_neg (by omega)]⟩

/-- Claim C7.  During the weekly Monday-to-Sunday aggregation, a fetch is
issued only for dates at or before today; any date strictly after today is
skipped entirely — it never appears among the fetched dates. -/
theorem weekly_window_no_future (today : Int) (wd : Nat) (d : Int)
    (h : d ∈ weeklyFetchedDates today wd) :
    d ≤ today ∧ ∀ d', today < d' → d' ∉ weeklyFetchedDates today wd := by
  constructor
  · obtain ⟨i, hi, hle, rfl⟩ := mem_weeklyFetchedDates.mp h
    omega
  · intro d' hd' hmem
    obtain ⟨i, hi, hle, rfl⟩ := mem_weeklyFetchedDates.mp hmem
    omega

/-- Witness for C7: Wednesday (weekday 2) of a week containing day 10. -/
theorem weekly_window_no_future_witness :
    (9 : Int) ≤ 10 ∧ ∀ d', (10 : Int) < d' → d' ∉ weeklyFetchedDates 10 2 :=
  weekly_window_no_future 10 2 9 (by decide)

/-- Claim C8.  Here format_time renders `"{hours}h {minutes}m"` with hours and
minutes obtained by integer division, leftover seconds discarded; in
particular `format_time 5400 = "1h 30m"` and `format_time 0 = "0h 0m"`. -/
theorem format_time_correct :
    (∀ s : Nat, format_time s =
      natRepr (s / 3600) ++ "h ".toList ++ natRepr (s % 3600 / 60) ++ "m".toList) ∧
    format_time 5400 = "1h 30m".toList ∧ format_time 0 = "0h 0m".toList := by
  refine ⟨fun s => ?_, by decide, by decide⟩
  show natRepr (s / 60 / 60) ++ "h ".toList ++ natRepr (s / 60 % 60) ++ "m".toList = _
  rw [Nat.div_div_eq_div_mul,
    show s / 60 % 60 = s % (60 * 60) / 60 from (Nat.mod_mul_right_div_self s 60 60).symm,
    show (60 : Nat) * 60 = 3600 from rfl]

theorem sortDesc_sorted {α : Type} (key : α → Nat) (l : List α) :
    (sortDesc key l).Pairwise (fun a b => key b ≤ key a) := by
  haveI ht : IsTotal α (fun a b => key b ≤ key a) := ⟨fun a b => le_total (key b) (key a)⟩
  haveI htr : IsTrans α (fun a b => key b ≤ key a) := ⟨fun _ _ _ h1 h2 => le_trans h2 h1⟩
  exact List.sorted_insertionSort _ l

theorem catHeader_not_in_projBlock (ps : List Project) :
    "### Top Categories".toList ∉ projBlockLines ps := by
  unfold projBlockLines
  split
  · simp
  · intro hmem
    simp only [List.mem_cons, List.mem_append, List.mem_map, List.mem_singleton] at hmem
    rcases hmem with h | h | h | ⟨p, hp, h⟩ | h | h
    · exact absurd h (by decide)
    · exact absurd h (by decide)
    · exact absurd h (by decide)
    · rw [projRow_shape] at h
      rw [show "### Top Categories".toList = '#' :: "## Top Categories".toList from rfl] at h
      injection h with h1 h2
      exact absurd h1 (by decide)
    · exact absurd h (by decide)
    · simp at h

theorem projHeader_not_in_catBlock (cs : List Category) :
    "### Top Projects".toList ∉ catBlockLines cs := by
  unfold catBlockLines
  split
  · simp
  · intro hmem
    simp only [List.mem_cons, List.mem_append, List.mem_map, List.mem_singleton] at hmem
    rcases hmem with h | h | h | ⟨c, hc, h⟩ | h | h
    · exact absurd h (by decide)
    · exact absurd h (by decide)
    · exact absurd h (by decide)
    · rw [catRow_shape] at h
      rw [show "### Top Projects".toList = '#' :: "## Top Projects".toList from rfl] at h
      injection h with h1 h2
      exact absurd h1 (by decide)
    · exact absurd h (by decide)
    · simp at h

theorem header_ne_table_line (nowArg : Str) (x : Str)
    (hx : x = "### Top Categories".toList ∨ x = "### Top Projects".toList) :
    x ≠ headerLine nowArg := by
  intro hc
  rw [headerLine_eq, show marker = '\n' :: "## 📊 Rize Metrics".toList from rfl,
    List.cons_append] at hc
  rcases hx with rfl | rfl
  · rw [show "### Top Categories".toList = '#' :: "## Top Categories".toList from rfl] at hc
    injection hc with h1 h2
    exact absurd h1 (by decide)
  · rw [show "### Top Projects".toList = '#' :: "## Top Projects".toList from rfl] at hc
    injection hc with h1 h2
    exact absurd h1 (by decide)

/-- Claim C9.  The rendered tables contain at most the top 10 entries by
descending duration: the displayed rows come from `take 10` of the sorted
list, the sorted list is descending by `trackedTime`, every hidden entry
is no larger than every displayed one, entries with equal duration keep
their original relative order (stable sort), the sorted list is a
permutation of the input, and an empty source list omits its table —
header included — entirely. -/
theorem renderer_top10 (now : Str) (cats : List Category) (projs : List Project) :
    ((sortDesc Category.trackedTime cats).take 10).length ≤ 10 ∧
    ((sortDesc Category.trackedTime cats).take 10).Pairwise
      (fun a b => b.trackedTime ≤ a.trackedTime) ∧
    (∀ a ∈ (sortDesc Category.trackedTime cats).take 10,
      ∀ b ∈ (sortDesc Category.trackedTime cats).drop 10, b.trackedTime ≤ a.trackedTime) ∧
    (∀ a b : Category, List.Sublist [a, b] cats → b.trackedTime ≤ a.trackedTime →
      List.Sublist [a, b] (sortDesc Category.trackedTime cats)) ∧
    (sortDesc Category.trackedTime cats).Perm cats ∧
    (cats = [] → "### Top Categories".toList ∉ reportLines now cats projs) ∧
    (cats ≠ [] → catBlockLines (sortDesc Category.trackedTime cats) =
      "### Top Categories".toList :: "| Category | Time |".toList ::
        "| :--- | :--- |".toList ::
        (((sortDesc Category.trackedTime cats).take 10).map catRow ++ ["\n".toList])) ∧
    ((sortDesc Project.trackedTime projs).take 10).length ≤ 10 ∧
    ((sortDesc Project.trackedTime projs).take 10).Pairwise
      (fun a b => b.trackedTime ≤ a.trackedTime) ∧
    (∀ a b : Project, List.Sublist [a, b] projs → b.trackedTime ≤ a.trackedTime →
      List.Sublist [a, b] (sortDesc Project.trackedTime projs)) ∧
    (projs = [] → "### Top Projects".toList ∉ reportLines now cats projs) := by
  have hsortC := sortDesc_sorted Category.trackedTime cats
  have hsortP := sortDesc_sorted Project.trackedTime projs
  refine ⟨List.length_take_le _ _, hsortC.sublist (List.take_sublist _ _), ?_, ?_, ?_,
    ?_, ?_, List.length_take_le _ _, hsortP.sublist (List.take_sublist _ _), ?_, ?_⟩
  · intro a ha b hb
    have hsplit := hsortC
    rw [← List.take_append_drop 10 (sortDesc Category.trackedTime cats),
      List.pairwise_append] at hsplit
    exact hsplit.2.2 a ha b hb
  · intro a b hab hle
    exact List.pair_sublist_insertionSort hle hab
  · exact sortDesc_perm _ _
  · rintro rfl hmem
    unfold reportLines at hmem
    rcases List.mem_cons.mp hmem with h | h
    · exact header_ne_table_line now _ (Or.inl rfl) h
    · rcases List.mem_append.mp h with h | h
      · rw [show sortDesc Category.trackedTime [] = [] from rfl] at h
        simp [catBlockLines] at h
      · exact catHeader_not_in_projBlock _ h
  · intro hne
    have hsne : sortDesc Category.trackedTime cats ≠ [] := by
      intro hc
      exact hne (List.Perm.nil_eq (hc ▸ sortDesc_perm Category.trackedTime cats)).symm
    unfold catBlockLines
    rw [if_neg hsne]
  · intro a b hab hle
    exact List.pair_sublist_insertionSort hle hab
  · rintro rfl hmem
    unfold reportLines at hmem
    rcases List.mem_cons.mp hmem with h | h
    · exact header_ne_table_line now _ (Or.inr rfl) h
    · rcases List.mem_append.mp h with h | h
      · exact projHeader_not_in_catBlock _ h
      · rw [show sortDesc Project.trackedTime [] = [] from rfl] at h
        simp [projBlockLines] at h

/-- Witness for C9: a tie keeps its original order, and an empty category
list omits the category table. -/
theorem renderer_top10_witness :
    List.Sublist [(⟨some ⟨some "A".toList⟩, 100⟩ : Category), ⟨some ⟨some "B".toList⟩, 100⟩]
      (sortDesc Category.trackedTime
        [⟨some ⟨some "A".toList⟩, 100⟩, ⟨some ⟨some "B".toList⟩, 100⟩,
          ⟨some ⟨some "C".toList⟩, 200⟩]) ∧
    "### Top Categories".toList ∉ reportLines "09:30".toList [] [] :=
  ⟨(renderer_top10 "09:30".toList
      [⟨some ⟨some "A".toList⟩, 100⟩, ⟨some ⟨some "B".toList⟩, 100⟩,
        ⟨some ⟨some "C".toList⟩, 200⟩] []).2.2.2.1 _ _ (by decide) (by decide),
   (renderer_top10 "09:30".toList [] []).2.2.2.2.2.1 rfl⟩

/-- Claim C10.  Function update_daily_note writes exactly the six metadata keys
`rize_work_hours`, `rize_focus_time`, `rize_meeting_time`,
`rize_break_time`, `rize_tracked_time` and `rize_last_sync` (with the
values computed by `to_hours`, resp. the sync timestamp); every other
metadata key keeps its prior value. -/
theorem update_metadata_frame (m : MetaMap) (M : Metrics) (t : Str) (k : Str)
    (h : k ∉ dailyMetaKeys) :
    update_daily_note_metadata m M t k = m k ∧
    update_daily_note_metadata m M t workHoursKey = some (.num (to_hours M.workHours)) ∧
    update_daily_note_metadata m M t focusTimeKey = some (.num (to_hours M.focusTime)) ∧
    update_daily_note_metadata m M t meetingTimeKey = some (.num (to_hours M.meetingTime)) ∧
    update_daily_note_metadata m M t breakTimeKey = some (.num (to_hours M.breakTime)) ∧
    update_daily_note_metadata m M t trackedTimeKey = some (.num (to_hours M.trackedTime)) ∧
    update_daily_note_metadata m M t lastSyncKey = some (.str t) := by
  simp only [dailyMetaKeys, List.mem_cons, List.not_mem_nil, or_false, not_or] at h
  obtain ⟨h1, h2, h3, h4, h5, h6⟩ := h
  unfold update_daily_note_metadata setKey
  refine ⟨?_, ?_, ?_, ?_, ?_, ?_, ?_⟩ <;>
    simp +decide [h1, h2, h3, h4, h5, h6]

/-- Witness for C10 at a concrete unrelated key. -/
theorem update_metadata_frame_witness :
    update_daily_note_metadata (fun _ => some (.num 1))
        ⟨some 18000, some 3600, some 0, some 600, some 18000, []⟩
        "2024-01-01T09:30:00".toList "tags".toList = some (.num 1) ∧
    update_daily_note_metadata (fun _ => some (.num 1))
        ⟨some 18000, some 3600, some 0, some 600, some 18000, []⟩
        "2024-01-01T09:30:00".toList workHoursKey =
      some (.num (to_hours (some 18000))) ∧
    update_daily_note_metadata (fun _ => some (.num 1))
        ⟨some 18000, some 3600, some 0, some 600, some 18000, []⟩
        "2024-01-01T09:30:00".toList focusTimeKey =
      some (.num (to_hours (some 3600))) ∧
    update_daily_note_metadata (fun _ => some (.num 1))
        ⟨some 18000, some 3600, some 0, some 600, some 18000, []⟩
        "2024-01-01T09:30:00".toList meetingTimeKey =
      some (.num (to_hours (some 0))) ∧
    update_daily_note_metadata (fun _ => some (.num 1))
        ⟨some 18000, some 3600, some 0, some 600, some 18000, []⟩
        "2024-01-01T09:30:00".toList breakTimeKey =
      some (.num (to_hours (some 600))) ∧
    update_daily_note_metadata (fun _ => some (.num 1))
        ⟨some 18000, some 3600, some 0, some 600, some 18000, []⟩
        "2024-01-01T09:30:00".toList trackedTimeKey =
      some (.num (to_hours (some 18000))) ∧
    update_daily_note_metadata (fun _ => some (.num 1))
        ⟨some 18000, some 3600, some 0, some 600, some 18000, []⟩
        "2024-01-01T09:30:00".toList lastSyncKey =
      some (.str "2024-01-01T09:30:00".toList) :=
  update_metadata_frame _ _ _ _ (by decide)
